import Mathlib

/-!
Shallow embedding of the gocnn dense-tensor compute core
(`internal/tensor`, `internal/ops`, `internal/data`) and proofs of the
spec claims about it.

Modelling conventions:
* Go `float32` values are modelled as exact rationals (`ℚ`); float rounding
  is not modelled, so equalities proved here are exact value equalities of
  the same arithmetic expressions the Go code evaluates.
* Go slices are Lean `List`s; `GetUnsafe`-style flat-array reads are
  `List.getD` with default `0`, `SetUnsafe` writes are `List.set` (a
  `List.set` out of range is a no-op; all writes proved about are in
  range, mirroring the in-bounds behaviour of the Go code).
* Go `int` loop bounds and dimensions are `Nat` (the modelled call sites
  never produce negative dimensions; checks such as `padding < 0` that can
  only fire on negative `int`s are therefore not representable and noted
  in comments where dropped).
* A Go function that can `panic` is modelled with the `GoResult` sum type:
  `ok` is a normal return, `panicked` is a runtime abort carrying the
  typed validation error it was formatted from.
* Transcendental helpers (`math.Exp`, `math.Sqrt`) are taken as explicit
  function parameters of the embedded operation, so every definition stays
  computable; theorems assume only the properties of those helpers that
  the claim needs (e.g. strict monotonicity and positivity for `exp`).
* Imperative loop nests that only write `output[f][i][j] = v f i j` are
  embedded as a fold of single-element writes (`writeSweep`) over the list
  of loop indices in source order, which keeps the loop structure (in
  particular the tiled traversal order of `conv2DTiled`) visible.
-/

namespace GoCNN

/- ================= Definitions (embedded from the source) ================= -/

/-- Outcome of a Go call that either returns normally or panics. -/
inductive GoResult (ε : Type) (α : Type) where
  | ok (val : α)
  | panicked (err : ε)
deriving DecidableEq

/-- Tests whether a `GoResult` is a panic. -/
def GoResult.isPanic {ε α : Type} : GoResult ε α → Bool
  | .ok _ => false
  | .panicked _ => true

/-- FeatureMap from internal/tensor/kernel.go: 3D activation volume stored
as a flat array, element (c,h,w) at flat index c*height*width + h*width + w. -/
structure FeatureMap where
  height : Nat
  width : Nat
  channels : Nat
  data : List ℚ
deriving DecidableEq

/-- Flat index used by FeatureMap.GetUnsafe/SetUnsafe. -/
def flatIdx (H W c h w : Nat) : Nat := c * H * W + h * W + w

/-- FeatureMap.GetUnsafe: unchecked flat-array read. -/
def FeatureMap.get (fm : FeatureMap) (c h w : Nat) : ℚ :=
  fm.data.getD (flatIdx fm.height fm.width c h w) 0

/-- FeatureMap.SetUnsafe: unchecked flat-array write. -/
def FeatureMap.setFM (fm : FeatureMap) (c h w : Nat) (v : ℚ) : FeatureMap :=
  { fm with data := fm.data.set (flatIdx fm.height fm.width c h w) v }

/-- NewFeatureMap: zero-filled map of the given dimensions. -/
def NewFeatureMap (height width channels : Nat) : FeatureMap :=
  ⟨height, width, channels, List.replicate (height * width * channels) 0⟩

/-- FeatureMap.Clone: fresh map of the declared size with the data copied in
(Go `copy` fills from the source and leaves any tail zero). -/
def FeatureMap.Clone (fm : FeatureMap) : FeatureMap :=
  ⟨fm.height, fm.width, fm.channels,
    (List.range (fm.height * fm.width * fm.channels)).map (fun i => fm.data.getD i 0)⟩

/-- Kernel from internal/tensor/kernel.go: 4D weights stored flat, element
(f,c,h,w) at index f*channels*size*size + c*size*size + h*size + w. -/
structure Kernel where
  size : Nat
  channels : Nat
  filters : Nat
  weights : List ℚ
deriving DecidableEq

/-- Kernel.GetWeightUnsafe: unchecked flat weight read. -/
def Kernel.getWeight (k : Kernel) (f c h w : Nat) : ℚ :=
  k.weights.getD (f * k.channels * k.size * k.size + c * k.size * k.size + h * k.size + w) 0

/-- Conv2DConfig from internal/ops/conv.go. -/
structure Conv2DConfig where
  padding : Nat
  stride : Nat
deriving DecidableEq

/-- The list of (c,h,w) loop indices of a channel-major triple loop nest,
in source iteration order. -/
def tripleList (C H W : Nat) : List (Nat × Nat × Nat) :=
  (List.range C).flatMap (fun c =>
    (List.range H).flatMap (fun h =>
      (List.range W).map (fun w => (c, h, w))))

/-- A loop nest that writes value `v c h w` at every index triple of `ts`,
in order. -/
def writeSweep (ts : List (Nat × Nat × Nat)) (v : Nat → Nat → Nat → ℚ)
    (fm : FeatureMap) : FeatureMap :=
  ts.foldl (fun m t => m.setFM t.1 t.2.1 t.2.2 (v t.1 t.2.1 t.2.2)) fm

/-- A loop nest whose written value reads the current (partially updated)
map at the written position, as BatchNormalizeInPlace does. -/
def sweepInPlace (ts : List (Nat × Nat × Nat)) (g : Nat → Nat → Nat → ℚ → ℚ)
    (fm : FeatureMap) : FeatureMap :=
  ts.foldl (fun m t => m.setFM t.1 t.2.1 t.2.2 (g t.1 t.2.1 t.2.2 (m.get t.1 t.2.1 t.2.2))) fm

/-- List-fold sum over `range n`, mirroring a `sum +=` loop. -/
def sumRange (n : Nat) (f : Nat → ℚ) : ℚ := ((List.range n).map f).sum

/-- PadFeatureMap: `padding <= 0` returns a clone; otherwise a zero map of
size (h+2p, w+2p, c) whose center the copy loop fills. The copy loop writes
`padded[c][h+p][w+p] = input[c][h][w]`; expressed through the written
coordinates, the value at (c, x, y) is `input[c][x-p][y-p]`. -/
def PadFeatureMap (input : FeatureMap) (padding : Nat) : FeatureMap :=
  if padding = 0 then input.Clone
  else
    writeSweep
      ((tripleList input.channels input.height input.width).map
        (fun t => (t.1, t.2.1 + padding, t.2.2 + padding)))
      (fun c x y => input.get c (x - padding) (y - padding))
      (NewFeatureMap (input.height + 2 * padding) (input.width + 2 * padding) input.channels)

/-- Zero-padded access as the spec describes it: the original value inside
the centered copy, zero on the border. -/
def paddedVal (input : FeatureMap) (p : Nat) (c x y : Nat) : ℚ :=
  if p ≤ x ∧ x < p + input.height ∧ p ≤ y ∧ y < p + input.width then
    input.get c (x - p) (y - p)
  else 0

/-- Typed validation errors of validateConv2DInputs (the two nil-pointer
checks and the negative-padding check cannot fire in this embedding, where
tensors are values and padding is a natural number). -/
inductive ConvError where
  | biasMismatch
  | channelMismatch
  | strideNonPositive
  | inputTooSmall
deriving DecidableEq

/-- validateConv2DInputs, in source check order. -/
def validateConv2DInputs (input : FeatureMap) (kernel : Kernel) (bias : List ℚ)
    (config : Conv2DConfig) : Option ConvError :=
  if bias.length ≠ kernel.filters then some .biasMismatch
  else if input.channels ≠ kernel.channels then some .channelMismatch
  else if config.stride = 0 then some .strideNonPositive
  else if input.height + 2 * config.padding < kernel.size ∨
      input.width + 2 * config.padding < kernel.size then some .inputTooSmall
  else none

/-- The accumulated sum of one output position of convolveFilter: over all
input channels and both kernel spatial dimensions. -/
def convValue (pin : FeatureMap) (kernel : Kernel) (config : Conv2DConfig)
    (f i j : Nat) : ℚ :=
  sumRange kernel.channels (fun c =>
    sumRange kernel.size (fun m =>
      sumRange kernel.size (fun n =>
        pin.get c (i * config.stride + m) (j * config.stride + n) * kernel.getWeight f c m n)))

/-- Loop indices of convolveFilter's two spatial loops for filter `f`. -/
def filterTriples (f outH outW : Nat) : List (Nat × Nat × Nat) :=
  (List.range outH).flatMap (fun i => (List.range outW).map (fun j => (f, i, j)))

/-- convolveFilter: writes `sum + bias` at every (f, i, j) of the output. -/
def convolveFilter (pin : FeatureMap) (kernel : Kernel) (output : FeatureMap)
    (filterIdx : Nat) (bias : ℚ) (config : Conv2DConfig) : FeatureMap :=
  writeSweep (filterTriples filterIdx output.height output.width)
    (fun f i j => convValue pin kernel config f i j + bias) output

/-- Conv2D from internal/ops/conv.go: validate (panicking on error), pad,
then convolve every filter sequentially. -/
def Conv2D (input : FeatureMap) (kernel : Kernel) (bias : List ℚ)
    (config : Conv2DConfig) : GoResult ConvError FeatureMap :=
  match validateConv2DInputs input kernel bias config with
  | some err => .panicked err
  | none =>
    let paddedInput := if 0 < config.padding then PadFeatureMap input config.padding else input
    let outHeight := (paddedInput.height - kernel.size) / config.stride + 1
    let outWidth := (paddedInput.width - kernel.size) / config.stride + 1
    .ok ((List.range kernel.filters).foldl
      (fun out f => convolveFilter paddedInput kernel out f (bias.getD f 0) config)
      (NewFeatureMap outHeight outWidth kernel.filters))

/-- Conv2DParallel: filter indices are distributed over a worker pool; each
filter is processed by convolveFilter exactly once and workers write
disjoint filter slices, so the result depends only on the multiset of
processed filters. The scheduling nondeterminism is modelled by the
`order` parameter: any completion order that is a permutation of the
filter indices. -/
def Conv2DParallel (order : List Nat) (input : FeatureMap) (kernel : Kernel)
    (bias : List ℚ) (config : Conv2DConfig) : GoResult ConvError FeatureMap :=
  match validateConv2DInputs input kernel bias config with
  | some err => .panicked err
  | none =>
    let paddedInput := if 0 < config.padding then PadFeatureMap input config.padding else input
    let outHeight := (paddedInput.height - kernel.size) / config.stride + 1
    let outWidth := (paddedInput.width - kernel.size) / config.stride + 1
    .ok (order.foldl
      (fun out f => convolveFilter paddedInput kernel out f (bias.getD f 0) config)
      (NewFeatureMap outHeight outWidth kernel.filters))

/-- ConvolutionEngine configuration (part of the ops package). -/
structure ConvolutionEngine where
  useParallel : Bool
  numWorkers : Nat
  blockSize : Nat
deriving DecidableEq

/-- Tile start offsets of a Go loop `for s := 0; s < total; s += tileSize`. -/
def tileStarts (total tileSize : Nat) : List Nat :=
  (List.range ((total + tileSize - 1) / tileSize)).map (· * tileSize)

/-- Loop indices of the tiled traversal: tiles of filters × rows × cols,
each tile processed by processTile's three inner loops. -/
def tiledTriples (F H W B : Nat) : List (Nat × Nat × Nat) :=
  (tileStarts F B).flatMap (fun fs =>
    (tileStarts H B).flatMap (fun rs =>
      (tileStarts W B).flatMap (fun cs =>
        (List.range' fs (min (fs + B) F - fs)).flatMap (fun f =>
          (List.range' rs (min (rs + B) H - rs)).flatMap (fun i =>
            (List.range' cs (min (cs + B) W - cs)).map (fun j => (f, i, j)))))))

/-- ConvolutionEngine.conv2DTiled: no validation; pads, then traverses the
output in cache tiles (block edge defaulting to 32), writing the same
per-position convolution sum as the direct form. -/
def conv2DTiled (ce : ConvolutionEngine) (input : FeatureMap) (kernel : Kernel)
    (bias : List ℚ) (config : Conv2DConfig) : FeatureMap :=
  let paddedInput := if 0 < config.padding then PadFeatureMap input config.padding else input
  let outHeight := (paddedInput.height - kernel.size) / config.stride + 1
  let outWidth := (paddedInput.width - kernel.size) / config.stride + 1
  let tileSize := if ce.blockSize = 0 then 32 else ce.blockSize
  writeSweep (tiledTriples kernel.filters outHeight outWidth tileSize)
    (fun f i j => convValue paddedInput kernel config f i j + bias.getD f 0)
    (NewFeatureMap outHeight outWidth kernel.filters)

/-- GetConvOutputDims from internal/ops/conv.go. -/
def GetConvOutputDims (inputHeight inputWidth kernelSize padding stride : Nat) : Nat × Nat :=
  ((inputHeight + 2 * padding - kernelSize) / stride + 1,
   (inputWidth + 2 * padding - kernelSize) / stride + 1)

/-- The padded input the convolution loops read. -/
def convPadded (input : FeatureMap) (config : Conv2DConfig) : FeatureMap :=
  if 0 < config.padding then PadFeatureMap input config.padding else input

/-- Output height computed inside Conv2D. -/
def convOutH (input : FeatureMap) (kernel : Kernel) (config : Conv2DConfig) : Nat :=
  ((convPadded input config).height - kernel.size) / config.stride + 1

/-- Output width computed inside Conv2D. -/
def convOutW (input : FeatureMap) (kernel : Kernel) (config : Conv2DConfig) : Nat :=
  ((convPadded input config).width - kernel.size) / config.stride + 1

/-- BatchNormParams from internal/ops/normalization.go. -/
structure BatchNormParams where
  mean : List ℚ
  variance : List ℚ
  scale : List ℚ
  shift : List ℚ
  epsilon : ℚ
deriving DecidableEq

/-- The panic raised when the parameter arrays do not match the feature
map's channel count. -/
inductive BatchNormError where
  | channelMismatch
deriving DecidableEq

/-- Per-pixel body of both batch-norm loops: normalize, scale and shift,
then clamp negatives to zero (the fused ReLU). `sq` stands for
`math.Sqrt`, applied to `variance + epsilon`. -/
def bnTransform (sq : ℚ → ℚ) (params : BatchNormParams) (c : Nat) (val : ℚ) : ℚ :=
  let stdDev := sq (params.variance.getD c 0 + params.epsilon)
  let normalized := (val - params.mean.getD c 0) / stdDev
  let transformed := params.scale.getD c 0 * normalized + params.shift.getD c 0
  if transformed < 0 then 0 else transformed

/-- BatchNormalize: checks the Mean length, clones, then overwrites every
pixel of the clone with the transform of the original's value. -/
def BatchNormalize (sq : ℚ → ℚ) (fm : FeatureMap) (params : BatchNormParams) :
    GoResult BatchNormError FeatureMap :=
  if params.mean.length ≠ fm.channels then .panicked .channelMismatch
  else .ok (writeSweep (tripleList fm.channels fm.height fm.width)
    (fun c h w => bnTransform sq params c (fm.get c h w)) fm.Clone)

/-- BatchNormalizeInPlace: same transform, reading and writing the same
map; each pixel is read before it is overwritten. -/
def BatchNormalizeInPlace (sq : ℚ → ℚ) (fm : FeatureMap) (params : BatchNormParams) :
    GoResult BatchNormError FeatureMap :=
  if params.mean.length ≠ fm.channels then .panicked .channelMismatch
  else .ok (sweepInPlace (tripleList fm.channels fm.height fm.width)
    (fun c _ _ val => bnTransform sq params c val) fm)

/-- PoolingType from internal/ops/pooling.go. -/
inductive PoolingType where
  | maxPooling
  | avgPooling
  | minPooling
deriving DecidableEq

/-- PoolingConfig; the source field `Type` is `ptype` here. -/
structure PoolingConfig where
  kernelSize : Nat
  stride : Nat
  ptype : PoolingType
deriving DecidableEq

/-- Typed validation errors of validatePoolingInputs (the nil check cannot
fire; the final output-dims check is kept although it is unreachable once
the window fits). -/
inductive PoolError where
  | kernelNonPositive
  | strideNonPositive
  | kernelTooLarge
  | badOutputDims
deriving DecidableEq

/-- validatePoolingInputs, in source check order. -/
def validatePoolingInputs (input : FeatureMap) (config : PoolingConfig) : Option PoolError :=
  if config.kernelSize = 0 then some .kernelNonPositive
  else if config.stride = 0 then some .strideNonPositive
  else if input.height < config.kernelSize ∨ input.width < config.kernelSize then
    some .kernelTooLarge
  else if (input.height - config.kernelSize) / config.stride + 1 = 0 ∨
      (input.width - config.kernelSize) / config.stride + 1 = 0 then some .badOutputDims
  else none

/-- The window values scanned by the pooling loops, rows then columns. -/
def windowVals (input : FeatureMap) (channel startH endH startW endW : Nat) : List ℚ :=
  (List.range' startH (endH - startH)).flatMap (fun h =>
    (List.range' startW (endW - startW)).map (fun w => input.get channel h w))

/-- maxPoolWindow: running maximum seeded with the window's corner value. -/
def maxPoolWindow (input : FeatureMap) (channel startH endH startW endW : Nat) : ℚ :=
  (windowVals input channel startH endH startW endW).foldl
    (fun m v => if m < v then v else m) (input.get channel startH startW)

/-- avgPoolWindow: sum divided by the element count, 0 for an empty window. -/
def avgPoolWindow (input : FeatureMap) (channel startH endH startW endW : Nat) : ℚ :=
  let vals := windowVals input channel startH endH startW endW
  if 0 < vals.length then vals.sum / (vals.length : ℚ) else 0

/-- minPoolWindow: running minimum seeded with the window's corner value. -/
def minPoolWindow (input : FeatureMap) (channel startH endH startW endW : Nat) : ℚ :=
  (windowVals input channel startH endH startW endW).foldl
    (fun m v => if v < m then v else m) (input.get channel startH startW)

/-- poolWindow dispatch (the default-panic branch is unreachable for the
three-valued type). -/
def poolWindow (input : FeatureMap) (channel startH endH startW endW : Nat)
    (poolType : PoolingType) : ℚ :=
  match poolType with
  | .maxPooling => maxPoolWindow input channel startH endH startW endW
  | .avgPooling => avgPoolWindow input channel startH endH startW endW
  | .minPooling => minPoolWindow input channel startH endH startW endW

/-- Pooling2D: validate (panicking on error), then reduce each window. -/
def Pooling2D (input : FeatureMap) (config : PoolingConfig) : GoResult PoolError FeatureMap :=
  match validatePoolingInputs input config with
  | some err => .panicked err
  | none =>
    let outHeight := (input.height - config.kernelSize) / config.stride + 1
    let outWidth := (input.width - config.kernelSize) / config.stride + 1
    .ok (writeSweep (tripleList input.channels outHeight outWidth)
      (fun c i j => poolWindow input c (i * config.stride)
        (i * config.stride + config.kernelSize) (j * config.stride)
        (j * config.stride + config.kernelSize) config.ptype)
      (NewFeatureMap outHeight outWidth input.channels))

/-- The running-maximum loop `if val > maxVal { maxVal = val }` seeded
with the first element. -/
def goMaxList (x : ℚ) (rest : List ℚ) : ℚ :=
  rest.foldl (fun m v => if m < v then v else m) x

/-- Softmax: find the maximum, exponentiate the shifted values while
summing, then normalize only when the sum is positive. `e` stands for
`math.Exp`. -/
def Softmax (e : ℚ → ℚ) (input : List ℚ) : List ℚ :=
  match input with
  | [] => []
  | x :: rest =>
    let maxVal := goMaxList x rest
    let result := (x :: rest).map (fun v => e (v - maxVal))
    let sum := result.sum
    if 0 < sum then result.map (fun v => v / sum) else result

/-- A computable strictly monotone positive function standing in for exp
when instantiating the softmax theorem. -/
def expWitness (x : ℚ) : ℚ := if x < 0 then 1 / (1 - x) else x + 1

/-- StochasticPooling: per window, collect the positive values in row-then
-column scan order together with their sum; output 0 when there are none
(or their sum is 0), otherwise the first collected value. The probability
slice the source also builds is dead code for the result and omitted. -/
def StochasticPooling (input : FeatureMap) (kernelSize stride : Nat) : FeatureMap :=
  let outHeight := (input.height - kernelSize) / stride + 1
  let outWidth := (input.width - kernelSize) / stride + 1
  writeSweep (tripleList input.channels outHeight outWidth)
    (fun c i j =>
      let values := (windowVals input c (i * stride) (i * stride + kernelSize)
        (j * stride) (j * stride + kernelSize)).filter (fun v => decide (0 < v))
      if values.length = 0 ∨ values.sum = 0 then 0 else values.headD 0)
    (NewFeatureMap outHeight outWidth input.channels)

/-- The panic raised when kernel.Filters differs from input.Channels. -/
inductive DepthwiseError where
  | filterMismatch
deriving DecidableEq

/-- Per-position sum of the depthwise loop: only input channel c and the
kernel weights at (filter c, channel c) contribute. -/
def dwValue (pin : FeatureMap) (kernel : Kernel) (config : Conv2DConfig) (c i j : Nat) : ℚ :=
  sumRange kernel.size (fun m =>
    sumRange kernel.size (fun n =>
      pin.get c (i * config.stride + m) (j * config.stride + n) * kernel.getWeight c c m n))

/-- DepthwiseConv2D from internal/ops/conv_specialized.go. -/
def DepthwiseConv2D (input : FeatureMap) (kernel : Kernel) (bias : List ℚ)
    (config : Conv2DConfig) : GoResult DepthwiseError FeatureMap :=
  if kernel.filters ≠ input.channels then .panicked .filterMismatch
  else
    let paddedInput := if 0 < config.padding then PadFeatureMap input config.padding else input
    let outHeight := (paddedInput.height - kernel.size) / config.stride + 1
    let outWidth := (paddedInput.width - kernel.size) / config.stride + 1
    .ok (writeSweep (tripleList input.channels outHeight outWidth)
      (fun c i j => dwValue paddedInput kernel config c i j + bias.getD c 0)
      (NewFeatureMap outHeight outWidth kernel.filters))

/-- The ok-branch output of DepthwiseConv2D. -/
def dwOut (input : FeatureMap) (kernel : Kernel) (bias : List ℚ)
    (config : Conv2DConfig) : FeatureMap :=
  writeSweep (tripleList input.channels (convOutH input kernel config)
    (convOutW input kernel config))
    (fun c i j => dwValue (convPadded input config) kernel config c i j + bias.getD c 0)
    (NewFeatureMap (convOutH input kernel config) (convOutW input kernel config)
      kernel.filters)

/-- Sum: the `sum += val` loop. -/
def Sum (slice : List ℚ) : ℚ := slice.foldl (fun s v => s + v) 0

/-- Mean: 0 for empty input, else Sum divided by the length. -/
def Mean (slice : List ℚ) : ℚ :=
  if slice.length = 0 then 0 else Sum slice / (slice.length : ℚ)

/-- Variance (sample): 0 for length at most 1, else the accumulated
squared deviations divided by n-1. -/
def Variance (slice : List ℚ) : ℚ :=
  if slice.length ≤ 1 then 0
  else (slice.foldl (fun acc val => acc + (val - Mean slice) * (val - Mean slice)) 0)
    / ((slice.length - 1 : Nat) : ℚ)

/-- StandardDeviation; `sq` stands for `math.Sqrt`. -/
def StandardDeviation (sq : ℚ → ℚ) (slice : List ℚ) : ℚ := sq (Variance slice)

/-- Normalize: empty stays empty; zero standard deviation yields the
all-zero slice; otherwise every element is centered and divided by std. -/
def Normalize (sq : ℚ → ℚ) (slice : List ℚ) : List ℚ :=
  if slice.length = 0 then []
  else if StandardDeviation sq slice = 0 then List.replicate slice.length 0
  else slice.map (fun val => (val - Mean slice) / StandardDeviation sq slice)

/-- NormalizeInPlace: mutates the slice to the same values Normalize
returns (the zero-std loop zeroes every element in place). -/
def NormalizeInPlace (sq : ℚ → ℚ) (slice : List ℚ) : List ℚ :=
  if slice.length = 0 then slice
  else if StandardDeviation sq slice = 0 then List.replicate slice.length 0
  else slice.map (fun val => (val - Mean slice) / StandardDeviation sq slice)

/-- The `for i, val := range slice[1:]` loop of both Argmax versions:
`pos` is the index in the original slice of the element under scan, and
only a strictly greater value displaces the running maximum. -/
def argmaxLoop (slice : List ℚ) (pos maxIdx : Nat) (maxVal : ℚ) : Nat :=
  match slice with
  | [] => maxIdx
  | v :: rest =>
    if maxVal < v then argmaxLoop rest (pos + 1) pos v
    else argmaxLoop rest (pos + 1) maxIdx maxVal

/-- Argmax from internal/ops/statistics.go. -/
def Argmax (slice : List ℚ) : Int :=
  match slice with
  | [] => -1
  | x :: rest => ((argmaxLoop rest 1 0 x : Nat) : Int)

/-- Argmax from internal/tensor/utils.go (same code). -/
def ArgmaxTensor (slice : List ℚ) : Int :=
  match slice with
  | [] => -1
  | x :: rest => ((argmaxLoop rest 1 0 x : Nat) : Int)

/-- The `for i, val := range oneHot` scan: first index holding 1, else -1. -/
def convertLoop (oneHot : List Int) (i : Nat) : Int :=
  match oneHot with
  | [] => -1
  | v :: rest => if v = 1 then (i : Int) else convertLoop rest (i + 1)

/-- ConvertOneHotToClassIndex from internal/data/manager.go. -/
def ConvertOneHotToClassIndex (oneHot : List Int) : Int := convertLoop oneHot 0

/-- ConvertClassIndexToOneHot: nil for an out-of-range index, else a zero
vector with a single 1 written at the index. -/
def ConvertClassIndexToOneHot (classIndex : Int) (numClasses : Nat) : Option (List Int) :=
  if classIndex < 0 ∨ (numClasses : Int) ≤ classIndex then none
  else some ((List.replicate numClasses 0).set classIndex.toNat 1)

/- ======================== Lemmas and claim theorems ======================== -/

theorem setFM_height (fm : FeatureMap) (c h w : Nat) (v : ℚ) :
    (fm.setFM c h w v).height = fm.height := rfl

theorem setFM_dims (fm : FeatureMap) (c h w : Nat) (v : ℚ) :
    (fm.setFM c h w v).height = fm.height ∧ (fm.setFM c h w v).width = fm.width ∧
    (fm.setFM c h w v).channels = fm.channels ∧
    (fm.setFM c h w v).data.length = fm.data.length := by
  refine ⟨rfl, rfl, rfl, ?_⟩
  simp [FeatureMap.setFM]

theorem sweepInPlace_dims (ts : List (Nat × Nat × Nat)) (g : Nat → Nat → Nat → ℚ → ℚ)
    (fm : FeatureMap) :
    (sweepInPlace ts g fm).height = fm.height ∧ (sweepInPlace ts g fm).width = fm.width ∧
    (sweepInPlace ts g fm).channels = fm.channels ∧
    (sweepInPlace ts g fm).data.length = fm.data.length := by
  induction ts generalizing fm with
  | nil => exact ⟨rfl, rfl, rfl, rfl⟩
  | cons t ts ih =>
    have h := ih (fm.setFM t.1 t.2.1 t.2.2 (g t.1 t.2.1 t.2.2 (fm.get t.1 t.2.1 t.2.2)))
    have hd := setFM_dims fm t.1 t.2.1 t.2.2 (g t.1 t.2.1 t.2.2 (fm.get t.1 t.2.1 t.2.2))
    simpa [sweepInPlace, hd.1, hd.2.1, hd.2.2.1, hd.2.2.2] using h

theorem writeSweep_eq_sweepInPlace (ts : List (Nat × Nat × Nat))
    (v : Nat → Nat → Nat → ℚ) (fm : FeatureMap) :
    writeSweep ts v fm = sweepInPlace ts (fun c h w _ => v c h w) fm := rfl

theorem writeSweep_dims (ts : List (Nat × Nat × Nat)) (v : Nat → Nat → Nat → ℚ)
    (fm : FeatureMap) :
    (writeSweep ts v fm).height = fm.height ∧ (writeSweep ts v fm).width = fm.width ∧
    (writeSweep ts v fm).channels = fm.channels ∧
    (writeSweep ts v fm).data.length = fm.data.length := by
  rw [writeSweep_eq_sweepInPlace]
  exact sweepInPlace_dims ts _ fm

/-- Reading an index untouched by a set is unchanged. -/
theorem getD_set_ne (l : List ℚ) (i j : Nat) (v : ℚ) (h : i ≠ j) :
    (l.set i v).getD j 0 = l.getD j 0 := by
  simp [List.getD_eq_getElem?_getD, List.getElem?_set_ne h]

/-- Reading the set index returns the written value when in range. -/
theorem getD_set_self (l : List ℚ) (i : Nat) (v : ℚ) (h : i < l.length) :
    (l.set i v).getD i 0 = v := by
  simp [List.getD_eq_getElem?_getD, List.getElem?_set_self h]

/-- Frame property: a sweep never touching flat index K preserves it. -/
theorem sweepInPlace_getD_notMem (ts : List (Nat × Nat × Nat))
    (g : Nat → Nat → Nat → ℚ → ℚ) (fm : FeatureMap) (K : Nat)
    (hK : ∀ t ∈ ts, flatIdx fm.height fm.width t.1 t.2.1 t.2.2 ≠ K) :
    (sweepInPlace ts g fm).data.getD K 0 = fm.data.getD K 0 := by
  induction ts generalizing fm with
  | nil => rfl
  | cons t ts ih =>
    have hne : flatIdx fm.height fm.width t.1 t.2.1 t.2.2 ≠ K := hK t (by simp)
    have step : (fm.setFM t.1 t.2.1 t.2.2 (g t.1 t.2.1 t.2.2 (fm.get t.1 t.2.1 t.2.2))).data.getD K 0
        = fm.data.getD K 0 := getD_set_ne _ _ _ _ hne
    have hK' : ∀ u ∈ ts,
        flatIdx (fm.setFM t.1 t.2.1 t.2.2 (g t.1 t.2.1 t.2.2 (fm.get t.1 t.2.1 t.2.2))).height
          (fm.setFM t.1 t.2.1 t.2.2 (g t.1 t.2.1 t.2.2 (fm.get t.1 t.2.1 t.2.2))).width
          u.1 u.2.1 u.2.2 ≠ K := by
      intro u hu
      exact hK u (by simp [hu])
    calc (sweepInPlace (t :: ts) g fm).data.getD K 0
        = (sweepInPlace ts g (fm.setFM t.1 t.2.1 t.2.2 (g t.1 t.2.1 t.2.2 (fm.get t.1 t.2.1 t.2.2)))).data.getD K 0 := rfl
      _ = _ := by rw [ih _ hK', step]

/-- Pure-sweep read: if `t0` is one of the written triples, all triples of
`ts` that alias its flat index write the same value, and the index is in
range, the final value at `t0` is `v t0`. This needs no ordering or
distinctness assumption, so it applies to any traversal order. -/
theorem writeSweep_getD_mem (ts : List (Nat × Nat × Nat)) (v : Nat → Nat → Nat → ℚ)
    (fm : FeatureMap) (t0 : Nat × Nat × Nat) (ht0 : t0 ∈ ts)
    (hsame : ∀ t ∈ ts, flatIdx fm.height fm.width t.1 t.2.1 t.2.2 =
        flatIdx fm.height fm.width t0.1 t0.2.1 t0.2.2 → v t.1 t.2.1 t.2.2 = v t0.1 t0.2.1 t0.2.2)
    (hlen : flatIdx fm.height fm.width t0.1 t0.2.1 t0.2.2 < fm.data.length) :
    (writeSweep ts v fm).data.getD (flatIdx fm.height fm.width t0.1 t0.2.1 t0.2.2) 0
      = v t0.1 t0.2.1 t0.2.2 := by
  induction ts generalizing fm t0 with
  | nil => cases ht0
  | cons t ts ih =>
    set fm' := fm.setFM t.1 t.2.1 t.2.2 (v t.1 t.2.1 t.2.2) with hfm'
    have hdims := setFM_dims fm t.1 t.2.1 t.2.2 (v t.1 t.2.1 t.2.2)
    have hstep : writeSweep (t :: ts) v fm = writeSweep ts v fm' := rfl
    by_cases hmem : ∃ u ∈ ts, flatIdx fm.height fm.width u.1 u.2.1 u.2.2 =
        flatIdx fm.height fm.width t0.1 t0.2.1 t0.2.2
    · obtain ⟨u, hu, hflat⟩ := hmem
      have hvu : v u.1 u.2.1 u.2.2 = v t0.1 t0.2.1 t0.2.2 :=
        hsame u (by simp [hu]) hflat
      have hsame' : ∀ s ∈ ts, flatIdx fm'.height fm'.width s.1 s.2.1 s.2.2 =
          flatIdx fm'.height fm'.width u.1 u.2.1 u.2.2 → v s.1 s.2.1 s.2.2 = v u.1 u.2.1 u.2.2 := by
        intro s hs he
        rw [hvu]
        refine hsame s (by simp [hs]) ?_
        have : flatIdx fm.height fm.width s.1 s.2.1 s.2.2 =
            flatIdx fm.height fm.width u.1 u.2.1 u.2.2 := by
          simpa [hdims.1, hdims.2.1] using he
        rw [this, hflat]
      have hlen' : flatIdx fm'.height fm'.width u.1 u.2.1 u.2.2 < fm'.data.length := by
        have : flatIdx fm'.height fm'.width u.1 u.2.1 u.2.2 =
            flatIdx fm.height fm.width t0.1 t0.2.1 t0.2.2 := by
          simpa [hdims.1, hdims.2.1] using hflat
        rw [this, hdims.2.2.2]
        exact hlen
      have := ih fm' u hu hsame' hlen'
      rw [hstep]
      have hflat' : flatIdx fm'.height fm'.width u.1 u.2.1 u.2.2 =
          flatIdx fm.height fm.width t0.1 t0.2.1 t0.2.2 := by
        simpa [hdims.1, hdims.2.1] using hflat
      rw [← hflat', this, hvu]
    · -- no later write aliases t0, so t0 must be the head write (or alias it)
      have ht0' : flatIdx fm.height fm.width t.1 t.2.1 t.2.2 =
          flatIdx fm.height fm.width t0.1 t0.2.1 t0.2.2 := by
        rcases List.mem_cons.mp ht0 with h | h
        · rw [h]
        · exact absurd ⟨t0, h, rfl⟩ hmem
      have hvt : v t.1 t.2.1 t.2.2 = v t0.1 t0.2.1 t0.2.2 :=
        hsame t (by simp) ht0'
      have hframe : ∀ u ∈ ts, flatIdx fm'.height fm'.width u.1 u.2.1 u.2.2 ≠
          flatIdx fm.height fm.width t0.1 t0.2.1 t0.2.2 := by
        intro u hu he
        exact hmem ⟨u, hu, by simpa [hdims.1, hdims.2.1] using he⟩
      rw [hstep, writeSweep_eq_sweepInPlace]
      rw [sweepInPlace_getD_notMem ts _ fm' _ hframe]
      have : fm'.data.getD (flatIdx fm.height fm.width t0.1 t0.2.1 t0.2.2) 0
          = v t.1 t.2.1 t.2.2 := by
        rw [← ht0']
        exact getD_set_self _ _ _ (by rw [← ht0'] at hlen; exact hlen)
      rw [this, hvt]

/-- Flat index bound for in-bounds triples. -/
theorem flatIdx_lt (H W C c h w : Nat) (hc : c < C) (hh : h < H) (hw : w < W) :
    flatIdx H W c h w < H * W * C := by
  unfold flatIdx
  have h1 : h * W + w < H * W := by
    calc h * W + w < h * W + W := by omega
      _ = (h + 1) * W := by ring
      _ ≤ H * W := Nat.mul_le_mul_right W hh
  calc c * H * W + h * W + w = c * (H * W) + (h * W + w) := by ring
    _ < c * (H * W) + H * W := by omega
    _ = (c + 1) * (H * W) := by ring
    _ ≤ C * (H * W) := Nat.mul_le_mul_right (H * W) hc
    _ = H * W * C := by ring

/-- Flat index is injective on in-bounds triples. -/
theorem flatIdx_inj (H W : Nat) (c h w c' h' w' : Nat)
    (hh : h < H) (hw : w < W) (hh' : h' < H) (hw' : w' < W)
    (he : flatIdx H W c h w = flatIdx H W c' h' w') :
    c = c' ∧ h = h' ∧ w = w' := by
  unfold flatIdx at he
  have e1 : c * (H * W) + (h * W + w) = c' * (H * W) + (h' * W + w') := by
    have : c * H * W + h * W + w = c * (H * W) + (h * W + w) := by ring
    have h2 : c' * H * W + h' * W + w' = c' * (H * W) + (h' * W + w') := by ring
    omega
  have hb : h * W + w < H * W := by
    calc h * W + w < h * W + W := by omega
      _ = (h + 1) * W := by ring
      _ ≤ H * W := Nat.mul_le_mul_right W hh
  have hb' : h' * W + w' < H * W := by
    calc h' * W + w' < h' * W + W := by omega
      _ = (h' + 1) * W := by ring
      _ ≤ H * W := Nat.mul_le_mul_right W hh'
  have hc : c = c' := by
    rcases Nat.lt_trichotomy c c' with h | h | h
    · exfalso
      have : (c + 1) * (H * W) ≤ c' * (H * W) := Nat.mul_le_mul_right _ h
      nlinarith [e1, hb, hb']
    · exact h
    · exfalso
      have : (c' + 1) * (H * W) ≤ c * (H * W) := Nat.mul_le_mul_right _ h
      nlinarith [e1, hb, hb']
  subst hc
  have e2 : h * W + w = h' * W + w' := by omega
  have hhh : h = h' := by
    rcases Nat.lt_trichotomy h h' with h3 | h3 | h3
    · exfalso
      have : (h + 1) * W ≤ h' * W := Nat.mul_le_mul_right _ h3
      nlinarith
    · exact h3
    · exfalso
      have : (h' + 1) * W ≤ h * W := Nat.mul_le_mul_right _ h3
      nlinarith
  subst hhh
  exact ⟨rfl, rfl, by omega⟩

/-- Membership characterization of the triple loop nest. -/
theorem mem_tripleList (C H W : Nat) (t : Nat × Nat × Nat) :
    t ∈ tripleList C H W ↔ t.1 < C ∧ t.2.1 < H ∧ t.2.2 < W := by
  simp only [tripleList, List.mem_flatMap, List.mem_map, List.mem_range]
  constructor
  · rintro ⟨c', hc', h', hh', w', hw', rfl⟩
    exact ⟨hc', hh', hw'⟩
  · rintro ⟨hc, hh, hw⟩
    exact ⟨t.1, hc, t.2.1, hh, t.2.2, hw, rfl⟩

/-- The flat indices written by the channel-major triple loop are exactly
`0, 1, ..., C*H*W - 1` in order. -/
theorem tripleList_map_flatIdx (C H W : Nat) :
    (tripleList C H W).map (fun t => flatIdx H W t.1 t.2.1 t.2.2) = List.range (C * (H * W)) := by
  have inner : ∀ base : Nat, ∀ hh : Nat,
      ((List.range W).map (fun w => base + hh * W + w)) = List.range' (base + hh * W) W := by
    intro base hh
    rw [List.range'_eq_map_range]
  have mid : ∀ base H', ((List.range H').flatMap
      (fun h => List.range' (base + h * W) W)) = List.range' base (H' * W) := by
    intro base H'
    induction H' with
    | zero => simp
    | succ n ihn =>
      rw [List.range_succ, List.flatMap_append, ihn]
      simp only [List.flatMap_cons, List.flatMap_nil, List.append_nil]
      rw [show (n + 1) * W = W + n * W by ring]
      exact List.range'_append_1 base (n * W) W
  have outer : ∀ C', ((List.range C').flatMap
      (fun c => List.range' (c * (H * W)) (H * W))) = List.range' 0 (C' * (H * W)) := by
    intro C'
    induction C' with
    | zero => simp
    | succ n ihn =>
      rw [List.range_succ, List.flatMap_append, ihn]
      simp only [List.flatMap_cons, List.flatMap_nil, List.append_nil]
      rw [show (n + 1) * (H * W) = H * W + n * (H * W) by ring]
      simpa using List.range'_append_1 0 (n * (H * W)) (H * W)
  unfold tripleList
  rw [List.map_flatMap]
  have step1 : ∀ c : Nat, ((List.range H).flatMap (fun h => (List.range W).map (fun w => (c, h, w)))).map
      (fun t => flatIdx H W t.1 t.2.1 t.2.2) = List.range' (c * (H * W)) (H * W) := by
    intro c
    rw [List.map_flatMap]
    have : ∀ h : Nat, (((List.range W).map (fun w => (c, h, w))).map
        (fun t => flatIdx H W t.1 t.2.1 t.2.2)) = List.range' (c * (H * W) + h * W) W := by
      intro h
      rw [List.map_map, ← inner (c * (H * W)) h]
      congr 1
      funext w
      simp [flatIdx, Function.comp]
      ring
    calc ((List.range H).flatMap fun h => ((List.range W).map (fun w => (c, h, w))).map
          (fun t => flatIdx H W t.1 t.2.1 t.2.2))
        = (List.range H).flatMap (fun h => List.range' (c * (H * W) + h * W) W) := by
          congr 1
          funext h
          exact this h
      _ = List.range' (c * (H * W)) (H * W) := mid (c * (H * W)) H
  calc ((List.range C).flatMap fun c => ((List.range H).flatMap
        (fun h => (List.range W).map (fun w => (c, h, w)))).map (fun t => flatIdx H W t.1 t.2.1 t.2.2))
      = (List.range C).flatMap (fun c => List.range' (c * (H * W)) (H * W)) := by
        congr 1
        funext c
        exact step1 c
    _ = List.range' 0 (C * (H * W)) := outer C
    _ = List.range (C * (H * W)) := (List.range_eq_range' _).symm

/-- The triple loop nest has pairwise distinct flat indices. -/
theorem tripleList_pairwise_flatIdx (C H W : Nat) :
    (tripleList C H W).Pairwise
      (fun a b => flatIdx H W a.1 a.2.1 a.2.2 ≠ flatIdx H W b.1 b.2.1 b.2.2) := by
  have h := tripleList_map_flatIdx C H W
  have hnd : ((tripleList C H W).map (fun t => flatIdx H W t.1 t.2.1 t.2.2)).Nodup := by
    rw [h]
    exact List.nodup_range _
  unfold List.Nodup at hnd
  rw [List.pairwise_map] at hnd
  exact hnd

theorem writeSweep_append (a b : List (Nat × Nat × Nat)) (v : Nat → Nat → Nat → ℚ)
    (fm : FeatureMap) :
    writeSweep (a ++ b) v fm = writeSweep b v (writeSweep a v fm) := by
  unfold writeSweep
  exact List.foldl_append _ _ _ _

theorem writeSweep_congr (ts : List (Nat × Nat × Nat)) (v v' : Nat → Nat → Nat → ℚ)
    (fm : FeatureMap) (h : ∀ t ∈ ts, v t.1 t.2.1 t.2.2 = v' t.1 t.2.1 t.2.2) :
    writeSweep ts v fm = writeSweep ts v' fm := by
  induction ts generalizing fm with
  | nil => rfl
  | cons t ts ih =>
    have hh : v t.1 t.2.1 t.2.2 = v' t.1 t.2.1 t.2.2 := h t (by simp)
    show writeSweep ts v (fm.setFM t.1 t.2.1 t.2.2 (v t.1 t.2.1 t.2.2)) = _
    rw [hh, ih _ (fun u hu => h u (by simp [hu]))]
    rfl

/-- Every element of a zero-initialized feature map reads 0. -/
theorem NewFeatureMap_getD (h w c K : Nat) : (NewFeatureMap h w c).data.getD K 0 = 0 := by
  simp [NewFeatureMap, List.getD_eq_getElem?_getD, List.getElem?_replicate]
  split <;> rfl

theorem NewFeatureMap_length (h w c : Nat) :
    (NewFeatureMap h w c).data.length = h * w * c := by
  simp [NewFeatureMap]

/-- Clone reads the same values as the original at in-bounds positions. -/
theorem Clone_get (fm : FeatureMap) (c h w : Nat) (hc : c < fm.channels)
    (hh : h < fm.height) (hw : w < fm.width) :
    fm.Clone.get c h w = fm.get c h w := by
  have hlt : flatIdx fm.height fm.width c h w < fm.height * fm.width * fm.channels :=
    flatIdx_lt _ _ _ _ _ _ hc hh hw
  simp only [FeatureMap.Clone, FeatureMap.get, List.getD_eq_getElem?_getD,
    List.getElem?_map, List.getElem?_range]
  simp [hlt]

theorem Clone_dims (fm : FeatureMap) :
    fm.Clone.height = fm.height ∧ fm.Clone.width = fm.width ∧
    fm.Clone.channels = fm.channels := ⟨rfl, rfl, rfl⟩

/-- Value read out of a pure channel-major full sweep. -/
theorem writeSweep_tripleList_get (C H W : Nat) (v : Nat → Nat → Nat → ℚ)
    (fm : FeatureMap) (hH : fm.height = H) (hW : fm.width = W)
    (hlen : H * W * C ≤ fm.data.length)
    (c h w : Nat) (hc : c < C) (hh : h < H) (hw : w < W) :
    (writeSweep (tripleList C H W) v fm).get c h w = v c h w := by
  have hdims := writeSweep_dims (tripleList C H W) v fm
  show (writeSweep (tripleList C H W) v fm).data.getD _ 0 = _
  rw [show flatIdx (writeSweep (tripleList C H W) v fm).height
      (writeSweep (tripleList C H W) v fm).width c h w = flatIdx fm.height fm.width c h w by
    rw [hdims.1, hdims.2.1]]
  have := writeSweep_getD_mem (tripleList C H W) v fm (c, h, w)
    (by rw [mem_tripleList]; exact ⟨hc, hh, hw⟩)
    (by
      intro t ht he
      have hb := (mem_tripleList C H W t).mp ht
      rw [hH, hW] at he
      obtain ⟨e1, e2, e3⟩ := flatIdx_inj H W t.1 t.2.1 t.2.2 c h w hb.2.1 hb.2.2 hh hw he
      rw [e1, e2, e3])
    (by
      rw [hH, hW]
      exact lt_of_lt_of_le (flatIdx_lt H W C c h w hc hh hw) hlen)
  exact this

/-- Value read out of a read-modify-write channel-major full sweep: each
position is rewritten from its own original value exactly once. -/
theorem sweepInPlace_getD_mem (H W : Nat) (ts : List (Nat × Nat × Nat))
    (g : Nat → Nat → Nat → ℚ → ℚ) (fm : FeatureMap) (t0 : Nat × Nat × Nat)
    (hH : fm.height = H) (hW : fm.width = W) (ht0 : t0 ∈ ts)
    (hpair : ts.Pairwise (fun a b => flatIdx H W a.1 a.2.1 a.2.2 ≠ flatIdx H W b.1 b.2.1 b.2.2))
    (hlen : flatIdx H W t0.1 t0.2.1 t0.2.2 < fm.data.length) :
    (sweepInPlace ts g fm).data.getD (flatIdx H W t0.1 t0.2.1 t0.2.2) 0
      = g t0.1 t0.2.1 t0.2.2 (fm.data.getD (flatIdx H W t0.1 t0.2.1 t0.2.2) 0) := by
  induction ts generalizing fm t0 with
  | nil => cases ht0
  | cons t ts ih =>
    have hdimsfm := setFM_dims fm t.1 t.2.1 t.2.2 (g t.1 t.2.1 t.2.2 (fm.get t.1 t.2.1 t.2.2))
    set fm' := fm.setFM t.1 t.2.1 t.2.2 (g t.1 t.2.1 t.2.2 (fm.get t.1 t.2.1 t.2.2)) with hfm'
    have hstep : sweepInPlace (t :: ts) g fm = sweepInPlace ts g fm' := rfl
    have hhead : ∀ u ∈ ts, flatIdx H W t.1 t.2.1 t.2.2 ≠ flatIdx H W u.1 u.2.1 u.2.2 :=
      fun u hu => (List.pairwise_cons.mp hpair).1 u hu
    rcases List.mem_cons.mp ht0 with rfl | hmem
    · -- head write, then a frame over the tail
      have hframe : ∀ u ∈ ts,
          flatIdx fm'.height fm'.width u.1 u.2.1 u.2.2 ≠ flatIdx H W t0.1 t0.2.1 t0.2.2 := by
        intro u hu
        have : fm'.height = H := by rw [hdimsfm.1, hH]
        have h2 : fm'.width = W := by rw [hdimsfm.2.1, hW]
        rw [this, h2]
        exact fun he => hhead u hu he.symm
      rw [hstep, sweepInPlace_getD_notMem ts g fm' _ hframe]
      have hsetidx : flatIdx fm.height fm.width t0.1 t0.2.1 t0.2.2 =
          flatIdx H W t0.1 t0.2.1 t0.2.2 := by rw [hH, hW]
      show fm'.data.getD _ 0 = _
      rw [hfm']
      show (fm.data.set (flatIdx fm.height fm.width t0.1 t0.2.1 t0.2.2) _).getD _ 0 = _
      rw [hsetidx]
      rw [getD_set_self _ _ _ hlen]
      have : fm.get t0.1 t0.2.1 t0.2.2 = fm.data.getD (flatIdx H W t0.1 t0.2.1 t0.2.2) 0 := by
        show fm.data.getD (flatIdx fm.height fm.width t0.1 t0.2.1 t0.2.2) 0 = _
        rw [hsetidx]
      rw [this]
    · -- in the tail: the head write does not touch t0
      have hne : flatIdx H W t.1 t.2.1 t.2.2 ≠ flatIdx H W t0.1 t0.2.1 t0.2.2 :=
        hhead t0 hmem
      have hpres : fm'.data.getD (flatIdx H W t0.1 t0.2.1 t0.2.2) 0
          = fm.data.getD (flatIdx H W t0.1 t0.2.1 t0.2.2) 0 := by
        rw [hfm']
        show (fm.data.set (flatIdx fm.height fm.width t.1 t.2.1 t.2.2) _).getD _ 0 = _
        rw [show flatIdx fm.height fm.width t.1 t.2.1 t.2.2 = flatIdx H W t.1 t.2.1 t.2.2 by
          rw [hH, hW]]
        exact getD_set_ne _ _ _ _ hne
      rw [hstep, ih fm' t0 (by rw [hdimsfm.1, hH]) (by rw [hdimsfm.2.1, hW]) hmem
        (List.pairwise_cons.mp hpair).2 (by rw [hdimsfm.2.2.2]; exact hlen), hpres]

/-- Read-modify-write full sweep: final value is `g` of the original. -/
theorem sweepInPlace_tripleList_get (C H W : Nat) (g : Nat → Nat → Nat → ℚ → ℚ)
    (fm : FeatureMap) (hH : fm.height = H) (hW : fm.width = W)
    (hlen : H * W * C ≤ fm.data.length)
    (c h w : Nat) (hc : c < C) (hh : h < H) (hw : w < W) :
    (sweepInPlace (tripleList C H W) g fm).get c h w = g c h w (fm.get c h w) := by
  have hdims := sweepInPlace_dims (tripleList C H W) g fm
  show (sweepInPlace (tripleList C H W) g fm).data.getD _ 0 = _
  rw [show flatIdx (sweepInPlace (tripleList C H W) g fm).height
      (sweepInPlace (tripleList C H W) g fm).width c h w = flatIdx H W c h w by
    rw [hdims.1, hdims.2.1, hH, hW]]
  have := sweepInPlace_getD_mem H W (tripleList C H W) g fm (c, h, w) hH hW
    (by rw [mem_tripleList]; exact ⟨hc, hh, hw⟩)
    (tripleList_pairwise_flatIdx C H W)
    (lt_of_lt_of_le (flatIdx_lt H W C c h w hc hh hw) hlen)
  rw [this]
  congr 1
  show fm.data.getD (flatIdx H W c h w) 0 = fm.data.getD (flatIdx fm.height fm.width c h w) 0
  rw [hH, hW]

theorem sumRange_eq_finsetSum (n : Nat) (f : Nat → ℚ) :
    sumRange n f = ∑ i ∈ Finset.range n, f i := by
  induction n with
  | zero => rfl
  | succ m ih =>
    rw [Finset.sum_range_succ, ← ih]
    unfold sumRange
    rw [List.range_succ]
    simp

theorem PadFeatureMap_dims (input : FeatureMap) (p : Nat) :
    (PadFeatureMap input p).height = input.height + 2 * p ∧
    (PadFeatureMap input p).width = input.width + 2 * p ∧
    (PadFeatureMap input p).channels = input.channels := by
  unfold PadFeatureMap
  by_cases hp : p = 0
  · subst hp
    simp [FeatureMap.Clone]
  · rw [if_neg hp]
    have := writeSweep_dims
      ((tripleList input.channels input.height input.width).map
        (fun t => (t.1, t.2.1 + p, t.2.2 + p)))
      (fun c x y => input.get c (x - p) (y - p))
      (NewFeatureMap (input.height + 2 * p) (input.width + 2 * p) input.channels)
    exact ⟨this.1, this.2.1, this.2.2.1⟩

/-- The padded map reads exactly as the spec's zero-padded access. -/
theorem PadFeatureMap_get (input : FeatureMap) (p : Nat) (c x y : Nat)
    (hc : c < input.channels) (hx : x < input.height + 2 * p) (hy : y < input.width + 2 * p) :
    (PadFeatureMap input p).get c x y = paddedVal input p c x y := by
  by_cases hp : p = 0
  · subst hp
    unfold PadFeatureMap
    rw [if_pos rfl]
    have hx' : x < input.height := by omega
    have hy' : y < input.width := by omega
    rw [Clone_get input c x y hc hx' hy']
    unfold paddedVal
    rw [if_pos (by omega)]
    simp
  · unfold PadFeatureMap
    rw [if_neg hp]
    set H := input.height
    set W := input.width
    set C := input.channels
    set base := NewFeatureMap (H + 2 * p) (W + 2 * p) C with hbase
    set ts := (tripleList C H W).map (fun t => (t.1, t.2.1 + p, t.2.2 + p)) with hts
    set v : Nat → Nat → Nat → ℚ := fun c' x' y' => input.get c' (x' - p) (y' - p) with hv
    have hdims := writeSweep_dims ts v base
    have hbH : base.height = H + 2 * p := rfl
    have hbW : base.width = W + 2 * p := rfl
    have hbounds : ∀ t ∈ ts, t.1 < C ∧ p ≤ t.2.1 ∧ t.2.1 < H + p ∧ p ≤ t.2.2 ∧ t.2.2 < W + p := by
      intro t ht
      rw [hts] at ht
      obtain ⟨u, hu, rfl⟩ := List.mem_map.mp ht
      have hb := (mem_tripleList C H W u).mp hu
      show u.1 < C ∧ p ≤ u.2.1 + p ∧ u.2.1 + p < H + p ∧ p ≤ u.2.2 + p ∧ u.2.2 + p < W + p
      exact ⟨hb.1, by omega, by omega, by omega, by omega⟩
    show (writeSweep ts v base).data.getD (flatIdx (writeSweep ts v base).height
      (writeSweep ts v base).width c x y) 0 = _
    rw [show flatIdx (writeSweep ts v base).height (writeSweep ts v base).width c x y =
        flatIdx (H + 2 * p) (W + 2 * p) c x y by rw [hdims.1, hdims.2.1, hbH, hbW]]
    by_cases hcenter : p ≤ x ∧ x < p + H ∧ p ≤ y ∧ y < p + W
    · -- center: the copy loop wrote this position
      have hmem : ((c, x, y) : Nat × Nat × Nat) ∈ ts := by
        rw [hts, List.mem_map]
        refine ⟨(c, x - p, y - p), ?_, ?_⟩
        · rw [mem_tripleList]
          show c < C ∧ x - p < H ∧ y - p < W
          exact ⟨hc, by omega, by omega⟩
        · show (c, x - p + p, y - p + p) = (c, x, y)
          have e1 : x - p + p = x := by omega
          have e2 : y - p + p = y := by omega
          rw [e1, e2]
      have := writeSweep_getD_mem ts v base (c, x, y) hmem
        (by
          intro t ht he
          have hb := hbounds t ht
          rw [hbH, hbW] at he
          obtain ⟨e1, e2, e3⟩ := flatIdx_inj (H + 2 * p) (W + 2 * p) t.1 t.2.1 t.2.2 c x y
            (by omega) (by omega) hx hy he
          rw [e1, e2, e3])
        (by
          rw [hbH, hbW, hbase, NewFeatureMap_length]
          exact flatIdx_lt _ _ _ _ _ _ hc hx hy)
      rw [show flatIdx base.height base.width c x y = flatIdx (H + 2 * p) (W + 2 * p) c x y from rfl] at this
      rw [this]
      unfold paddedVal
      rw [if_pos (by omega)]
    · -- border: never written, stays zero
      have hframe : ∀ t ∈ ts, flatIdx base.height base.width t.1 t.2.1 t.2.2 ≠
          flatIdx (H + 2 * p) (W + 2 * p) c x y := by
        intro t ht he
        have hb := hbounds t ht
        rw [hbH, hbW] at he
        obtain ⟨e1, e2, e3⟩ := flatIdx_inj (H + 2 * p) (W + 2 * p) t.1 t.2.1 t.2.2 c x y
          (by omega) (by omega) hx hy he
        exact hcenter (by omega)
      rw [writeSweep_eq_sweepInPlace, sweepInPlace_getD_notMem ts _ base _ hframe]
      rw [hbase, NewFeatureMap_getD]
      unfold paddedVal
      rw [if_neg (by omega)]

theorem convPadded_height (input : FeatureMap) (config : Conv2DConfig) :
    (convPadded input config).height = input.height + 2 * config.padding := by
  unfold convPadded
  by_cases hp : 0 < config.padding
  · rw [if_pos hp]
    exact (PadFeatureMap_dims input config.padding).1
  · rw [if_neg hp]
    omega

theorem convPadded_width (input : FeatureMap) (config : Conv2DConfig) :
    (convPadded input config).width = input.width + 2 * config.padding := by
  unfold convPadded
  by_cases hp : 0 < config.padding
  · rw [if_pos hp]
    exact (PadFeatureMap_dims input config.padding).2.1
  · rw [if_neg hp]
    omega

theorem mem_filterTriples (f outH outW : Nat) (t : Nat × Nat × Nat) :
    t ∈ filterTriples f outH outW ↔ t.1 = f ∧ t.2.1 < outH ∧ t.2.2 < outW := by
  simp only [filterTriples, List.mem_flatMap, List.mem_map, List.mem_range]
  constructor
  · rintro ⟨i, hi, j, hj, rfl⟩
    exact ⟨rfl, hi, hj⟩
  · rintro ⟨hf, hi, hj⟩
    exact ⟨t.2.1, hi, t.2.2, hj, by rw [← hf]⟩

theorem tripleList_eq_flatMap_filterTriples (F H W : Nat) :
    tripleList F H W = (List.range F).flatMap (fun f => filterTriples f H W) := rfl

/-- The sequential (or any-order) filter loop of Conv2D/Conv2DParallel is
one big sweep over the filter-major traversal of its processing order. -/
theorem convLoop_eq_writeSweep (pin : FeatureMap) (kernel : Kernel) (bias : List ℚ)
    (config : Conv2DConfig) (l : List Nat) (out : FeatureMap) :
    l.foldl (fun o f => convolveFilter pin kernel o f (bias.getD f 0) config) out
      = writeSweep (l.flatMap (fun f => filterTriples f out.height out.width))
          (fun f i j => convValue pin kernel config f i j + bias.getD f 0) out := by
  induction l generalizing out with
  | nil => rfl
  | cons f l ih =>
    have hcf : convolveFilter pin kernel out f (bias.getD f 0) config
        = writeSweep (filterTriples f out.height out.width)
            (fun f' i j => convValue pin kernel config f' i j + bias.getD f 0) out := rfl
    have hdims := writeSweep_dims (filterTriples f out.height out.width)
      (fun f' i j => convValue pin kernel config f' i j + bias.getD f 0) out
    have hcongr : writeSweep (filterTriples f out.height out.width)
        (fun f' i j => convValue pin kernel config f' i j + bias.getD f 0) out
        = writeSweep (filterTriples f out.height out.width)
            (fun f' i j => convValue pin kernel config f' i j + bias.getD f' 0) out := by
      apply writeSweep_congr
      intro t ht
      have := (mem_filterTriples f out.height out.width t).mp ht
      rw [this.1]
    calc (f :: l).foldl (fun o f' => convolveFilter pin kernel o f' (bias.getD f' 0) config) out
        = l.foldl (fun o f' => convolveFilter pin kernel o f' (bias.getD f' 0) config)
            (convolveFilter pin kernel out f (bias.getD f 0) config) := rfl
      _ = writeSweep (l.flatMap (fun f' => filterTriples f'
            (convolveFilter pin kernel out f (bias.getD f 0) config).height
            (convolveFilter pin kernel out f (bias.getD f 0) config).width))
            (fun f' i j => convValue pin kernel config f' i j + bias.getD f' 0)
            (convolveFilter pin kernel out f (bias.getD f 0) config) :=
          ih _
      _ = writeSweep (l.flatMap (fun f' => filterTriples f' out.height out.width))
            (fun f' i j => convValue pin kernel config f' i j + bias.getD f' 0)
            (writeSweep (filterTriples f out.height out.width)
              (fun f' i j => convValue pin kernel config f' i j + bias.getD f' 0) out) := by
          rw [hcf]
          rw [show (writeSweep (filterTriples f out.height out.width)
              (fun f' i j => convValue pin kernel config f' i j + bias.getD f 0) out).height
            = out.height from hdims.1]
          rw [show (writeSweep (filterTriples f out.height out.width)
              (fun f' i j => convValue pin kernel config f' i j + bias.getD f 0) out).width
            = out.width from hdims.2.1]
          rw [hcongr]
      _ = writeSweep ((f :: l).flatMap (fun f' => filterTriples f' out.height out.width))
            (fun f' i j => convValue pin kernel config f' i j + bias.getD f' 0) out := by
          rw [List.flatMap_cons, writeSweep_append]

/-- In-bounds coordinate arithmetic of the convolution loops. -/
theorem conv_coord_lt (D k s i m : Nat) (hs : 0 < s) (hk : k ≤ D)
    (hi : i < (D - k) / s + 1) (hm : m < k) : i * s + m < D := by
  have h1 : i ≤ (D - k) / s := by omega
  have h2 : i * s ≤ D - k := (Nat.le_div_iff_mul_le hs).mp h1
  omega

theorem Conv2D_eq_ok (input : FeatureMap) (kernel : Kernel) (bias : List ℚ)
    (config : Conv2DConfig)
    (hv : validateConv2DInputs input kernel bias config = none) :
    Conv2D input kernel bias config = .ok
      (writeSweep (tripleList kernel.filters (convOutH input kernel config) (convOutW input kernel config))
        (fun f i j => convValue (convPadded input config) kernel config f i j + bias.getD f 0)
        (NewFeatureMap (convOutH input kernel config) (convOutW input kernel config) kernel.filters)) := by
  unfold Conv2D
  rw [hv]
  have := convLoop_eq_writeSweep (convPadded input config) kernel bias config
    (List.range kernel.filters)
    (NewFeatureMap (convOutH input kernel config) (convOutW input kernel config) kernel.filters)
  simp only [GoResult.ok.injEq]
  rw [show (NewFeatureMap (convOutH input kernel config) (convOutW input kernel config)
      kernel.filters).height = convOutH input kernel config from rfl] at this
  rw [show (NewFeatureMap (convOutH input kernel config) (convOutW input kernel config)
      kernel.filters).width = convOutW input kernel config from rfl] at this
  rw [← tripleList_eq_flatMap_filterTriples] at this
  exact this

theorem Conv2DParallel_eq_ok (order : List Nat) (input : FeatureMap) (kernel : Kernel)
    (bias : List ℚ) (config : Conv2DConfig)
    (hv : validateConv2DInputs input kernel bias config = none) :
    Conv2DParallel order input kernel bias config = .ok
      (writeSweep (order.flatMap (fun f => filterTriples f (convOutH input kernel config)
          (convOutW input kernel config)))
        (fun f i j => convValue (convPadded input config) kernel config f i j + bias.getD f 0)
        (NewFeatureMap (convOutH input kernel config) (convOutW input kernel config) kernel.filters)) := by
  unfold Conv2DParallel
  rw [hv]
  have := convLoop_eq_writeSweep (convPadded input config) kernel bias config order
    (NewFeatureMap (convOutH input kernel config) (convOutW input kernel config) kernel.filters)
  simp only [GoResult.ok.injEq]
  exact this

/-- Per-element value of the direct convolution output. -/
theorem convOut_get (input : FeatureMap) (kernel : Kernel) (bias : List ℚ)
    (config : Conv2DConfig) (f i j : Nat) (hf : f < kernel.filters)
    (hi : i < convOutH input kernel config) (hj : j < convOutW input kernel config) :
    (writeSweep (tripleList kernel.filters (convOutH input kernel config) (convOutW input kernel config))
        (fun f' i' j' => convValue (convPadded input config) kernel config f' i' j' + bias.getD f' 0)
        (NewFeatureMap (convOutH input kernel config) (convOutW input kernel config) kernel.filters)).get f i j
      = convValue (convPadded input config) kernel config f i j + bias.getD f 0 := by
  exact writeSweep_tripleList_get kernel.filters (convOutH input kernel config)
    (convOutW input kernel config) _ _ rfl rfl (by rw [NewFeatureMap_length]) f i j hf hi hj

/-- The convolution inner sum, in the spec's summation form over the
zero-padded input. -/
theorem convValue_eq_paddedVal_sum (input : FeatureMap) (kernel : Kernel)
    (config : Conv2DConfig) (f i j : Nat)
    (hch : input.channels = kernel.channels)
    (hstride : 0 < config.stride)
    (hsH : kernel.size ≤ input.height + 2 * config.padding)
    (hsW : kernel.size ≤ input.width + 2 * config.padding)
    (hi : i < convOutH input kernel config) (hj : j < convOutW input kernel config) :
    convValue (convPadded input config) kernel config f i j
      = ∑ c ∈ Finset.range kernel.channels, ∑ m ∈ Finset.range kernel.size,
          ∑ n ∈ Finset.range kernel.size,
            paddedVal input config.padding c (i * config.stride + m) (j * config.stride + n) *
              kernel.getWeight f c m n := by
  have hiH : i < (input.height + 2 * config.padding - kernel.size) / config.stride + 1 := by
    have := hi
    unfold convOutH at this
    rw [convPadded_height] at this
    exact this
  have hjW : j < (input.width + 2 * config.padding - kernel.size) / config.stride + 1 := by
    have := hj
    unfold convOutW at this
    rw [convPadded_width] at this
    exact this
  unfold convValue
  rw [sumRange_eq_finsetSum]
  refine Finset.sum_congr rfl ?_
  intro c hc
  rw [sumRange_eq_finsetSum]
  refine Finset.sum_congr rfl ?_
  intro m hm
  rw [sumRange_eq_finsetSum]
  refine Finset.sum_congr rfl ?_
  intro n hn
  have hc' : c < kernel.channels := Finset.mem_range.mp hc
  have hm' : m < kernel.size := Finset.mem_range.mp hm
  have hn' : n < kernel.size := Finset.mem_range.mp hn
  congr 1
  have hx : i * config.stride + m < input.height + 2 * config.padding :=
    conv_coord_lt _ _ _ _ _ hstride hsH hiH hm'
  have hy : j * config.stride + n < input.width + 2 * config.padding :=
    conv_coord_lt _ _ _ _ _ hstride hsW hjW hn'
  by_cases hp : 0 < config.padding
  · show (convPadded input config).get c _ _ = _
    unfold convPadded
    rw [if_pos hp]
    exact PadFeatureMap_get input config.padding c _ _ (by omega) hx hy
  · have hp0 : config.padding = 0 := by omega
    show (convPadded input config).get c _ _ = _
    unfold convPadded
    rw [if_neg hp, hp0]
    unfold paddedVal
    rw [if_pos (by omega)]
    simp

/-- C1. For every valid input/kernel/bias/config, Conv2D returns ok with
output dimensions `(in + 2*padding - size)/stride + 1` per spatial axis and
`filters` channels, and every element is the bias plus the triple sum of
zero-padded input values times kernel weights. -/
theorem conv2D_direct_formula_c1 (input : FeatureMap) (kernel : Kernel)
    (bias : List ℚ) (config : Conv2DConfig)
    (hch : input.channels = kernel.channels)
    (hbias : bias.length = kernel.filters)
    (hstride : 0 < config.stride)
    (hsH : kernel.size ≤ input.height + 2 * config.padding)
    (hsW : kernel.size ≤ input.width + 2 * config.padding) :
    ∃ out, Conv2D input kernel bias config = .ok out ∧
      out.height = (input.height + 2 * config.padding - kernel.size) / config.stride + 1 ∧
      out.width = (input.width + 2 * config.padding - kernel.size) / config.stride + 1 ∧
      out.channels = kernel.filters ∧
      ∀ f i j, f < kernel.filters → i < out.height → j < out.width →
        out.get f i j = bias.getD f 0 +
          ∑ c ∈ Finset.range kernel.channels, ∑ m ∈ Finset.range kernel.size,
            ∑ n ∈ Finset.range kernel.size,
              paddedVal input config.padding c (i * config.stride + m) (j * config.stride + n) *
                kernel.getWeight f c m n := by
  have hv : validateConv2DInputs input kernel bias config = none := by
    unfold validateConv2DInputs
    rw [if_neg (by omega), if_neg (by omega), if_neg (by omega), if_neg (by omega)]
  refine ⟨_, Conv2D_eq_ok input kernel bias config hv, ?_, ?_, ?_, ?_⟩
  · have := (writeSweep_dims
      (tripleList kernel.filters (convOutH input kernel config) (convOutW input kernel config))
      (fun f' i' j' => convValue (convPadded input config) kernel config f' i' j' + bias.getD f' 0)
      (NewFeatureMap (convOutH input kernel config) (convOutW input kernel config) kernel.filters)).1
    rw [this]
    show convOutH input kernel config = _
    unfold convOutH
    rw [convPadded_height]
  · have := (writeSweep_dims
      (tripleList kernel.filters (convOutH input kernel config) (convOutW input kernel config))
      (fun f' i' j' => convValue (convPadded input config) kernel config f' i' j' + bias.getD f' 0)
      (NewFeatureMap (convOutH input kernel config) (convOutW input kernel config) kernel.filters)).2.1
    rw [this]
    show convOutW input kernel config = _
    unfold convOutW
    rw [convPadded_width]
  · exact (writeSweep_dims
      (tripleList kernel.filters (convOutH input kernel config) (convOutW input kernel config))
      (fun f' i' j' => convValue (convPadded input config) kernel config f' i' j' + bias.getD f' 0)
      (NewFeatureMap (convOutH input kernel config) (convOutW input kernel config) kernel.filters)).2.2.1
  · intro f i j hf hi hj
    have hH : (writeSweep (tripleList kernel.filters (convOutH input kernel config)
        (convOutW input kernel config))
        (fun f' i' j' => convValue (convPadded input config) kernel config f' i' j' + bias.getD f' 0)
        (NewFeatureMap (convOutH input kernel config) (convOutW input kernel config)
          kernel.filters)).height = convOutH input kernel config := (writeSweep_dims _ _ _).1
    have hW : (writeSweep (tripleList kernel.filters (convOutH input kernel config)
        (convOutW input kernel config))
        (fun f' i' j' => convValue (convPadded input config) kernel config f' i' j' + bias.getD f' 0)
        (NewFeatureMap (convOutH input kernel config) (convOutW input kernel config)
          kernel.filters)).width = convOutW input kernel config := (writeSweep_dims _ _ _).2.1
    rw [hH] at hi
    rw [hW] at hj
    rw [convOut_get input kernel bias config f i j hf hi hj]
    rw [convValue_eq_paddedVal_sum input kernel config f i j hch hstride hsH hsW hi hj]
    exact add_comm _ _

/-- C1 witness: a 3x3 all-ones single-channel input convolved with a 3x3
all-ones single-filter kernel, zero bias, no padding, stride 1 — the spec's
own smoke test (single output value 9). -/
theorem conv2D_direct_formula_c1_witness :
    (FeatureMap.mk 3 3 1 (List.replicate 9 1)).channels = (Kernel.mk 3 1 1 (List.replicate 9 1)).channels ∧
    ([(0 : ℚ)]).length = (Kernel.mk 3 1 1 (List.replicate 9 1)).filters ∧
    0 < (Conv2DConfig.mk 0 1).stride ∧
    (Kernel.mk 3 1 1 (List.replicate 9 1)).size ≤
      (FeatureMap.mk 3 3 1 (List.replicate 9 1)).height + 2 * (Conv2DConfig.mk 0 1).padding ∧
    (Kernel.mk 3 1 1 (List.replicate 9 1)).size ≤
      (FeatureMap.mk 3 3 1 (List.replicate 9 1)).width + 2 * (Conv2DConfig.mk 0 1).padding ∧
    (∃ out, Conv2D (FeatureMap.mk 3 3 1 (List.replicate 9 1)) (Kernel.mk 3 1 1 (List.replicate 9 1))
        [(0 : ℚ)] (Conv2DConfig.mk 0 1) = .ok out ∧
      out.height = 1 ∧ out.width = 1 ∧ out.channels = 1 ∧
      ∀ f i j, f < 1 → i < out.height → j < out.width →
        out.get f i j = ([(0 : ℚ)]).getD f 0 +
          ∑ c ∈ Finset.range 1, ∑ m ∈ Finset.range 3, ∑ n ∈ Finset.range 3,
            paddedVal (FeatureMap.mk 3 3 1 (List.replicate 9 1)) 0 c (i * 1 + m) (j * 1 + n) *
              (Kernel.mk 3 1 1 (List.replicate 9 1)).getWeight f c m n) :=
  ⟨rfl, rfl, by decide, by decide, by decide,
    conv2D_direct_formula_c1 (FeatureMap.mk 3 3 1 (List.replicate 9 1))
      (Kernel.mk 3 1 1 (List.replicate 9 1)) [(0 : ℚ)] (Conv2DConfig.mk 0 1)
      rfl rfl (by decide) (by decide) (by decide)⟩

theorem mem_range'_iff (s n m : Nat) : m ∈ List.range' s n ↔ s ≤ m ∧ m < s + n := by
  rw [List.mem_range']
  constructor
  · rintro ⟨i, hi, rfl⟩
    omega
  · intro h
    exact ⟨m - s, by omega, by omega⟩

/-- General in-bounds sweep read: any traversal that visits `(c,h,w)`,
stays inside the `C×H×W` box, and writes a value that is a function of the
position alone, leaves `v c h w` there. -/
theorem writeSweep_get_of_mem (C H W : Nat) (ts : List (Nat × Nat × Nat))
    (v : Nat → Nat → Nat → ℚ) (fm : FeatureMap) (hH : fm.height = H) (hW : fm.width = W)
    (hlen : H * W * C ≤ fm.data.length)
    (hbounds : ∀ t ∈ ts, t.1 < C ∧ t.2.1 < H ∧ t.2.2 < W)
    (c h w : Nat) (hc : c < C) (hh : h < H) (hw : w < W)
    (hmem : ((c, h, w) : Nat × Nat × Nat) ∈ ts) :
    (writeSweep ts v fm).get c h w = v c h w := by
  have hdims := writeSweep_dims ts v fm
  show (writeSweep ts v fm).data.getD _ 0 = _
  rw [show flatIdx (writeSweep ts v fm).height (writeSweep ts v fm).width c h w
      = flatIdx fm.height fm.width c h w by rw [hdims.1, hdims.2.1]]
  exact writeSweep_getD_mem ts v fm (c, h, w) hmem
    (by
      intro t ht he
      have hb := hbounds t ht
      rw [hH, hW] at he
      obtain ⟨e1, e2, e3⟩ := flatIdx_inj H W t.1 t.2.1 t.2.2 c h w hb.2.1 hb.2.2 hh hw he
      rw [e1, e2, e3])
    (by
      rw [hH, hW]
      exact lt_of_lt_of_le (flatIdx_lt H W C c h w hc hh hw) hlen)

theorem mem_tileStarts_iff (total B s : Nat) :
    s ∈ tileStarts total B ↔ ∃ m, m < (total + B - 1) / B ∧ s = m * B := by
  simp only [tileStarts, List.mem_map, List.mem_range]
  constructor
  · rintro ⟨m, hm, rfl⟩
    exact ⟨m, hm, rfl⟩
  · rintro ⟨m, hm, rfl⟩
    exact ⟨m, hm, rfl⟩

/-- Every coordinate of the output is inside exactly the tile that starts
at `(x / B) * B`; in particular the tile loop covers it. -/
theorem dimCover (total B x : Nat) (hB : 0 < B) (hx : x < total) :
    ∃ s ∈ tileStarts total B, s ≤ x ∧ x < min (s + B) total := by
  refine ⟨x / B * B, ?_, ?_, ?_⟩
  · rw [mem_tileStarts_iff]
    refine ⟨x / B, ?_, rfl⟩
    have h1 : (x / B + 1) * B ≤ total + B - 1 := by
      have h2 : x / B * B ≤ x := Nat.div_mul_le_self x B
      have : (x / B + 1) * B = x / B * B + B := by ring
      omega
    have := (Nat.le_div_iff_mul_le hB).mpr h1
    omega
  · exact Nat.div_mul_le_self x B
  · have hmod := Nat.div_add_mod x B
    have hlt : x % B < B := Nat.mod_lt x hB
    have hcomm : x / B * B = B * (x / B) := Nat.mul_comm _ _
    omega

theorem range'_tile_lt (s B total x : Nat)
    (hx : x ∈ List.range' s (min (s + B) total - s)) : x < total := by
  rw [mem_range'_iff] at hx
  have h1 : min (s + B) total ≤ total := Nat.min_le_right _ _
  rcases Nat.le_total s (min (s + B) total) with hle | hle
  · omega
  · omega

theorem tiledTriples_bounds (F H W B : Nat) :
    ∀ t ∈ tiledTriples F H W B, t.1 < F ∧ t.2.1 < H ∧ t.2.2 < W := by
  intro t ht
  simp only [tiledTriples, List.mem_flatMap, List.mem_map] at ht
  obtain ⟨fs, _, rs, _, cs, _, f, hf, i, hi, j, hj, rfl⟩ := ht
  exact ⟨range'_tile_lt fs B F f hf, range'_tile_lt rs B H i hi, range'_tile_lt cs B W j hj⟩

theorem mem_tiledTriples (F H W B f i j : Nat) (hB : 0 < B)
    (hf : f < F) (hi : i < H) (hj : j < W) :
    ((f, i, j) : Nat × Nat × Nat) ∈ tiledTriples F H W B := by
  obtain ⟨fs, hfs, hfle, hflt⟩ := dimCover F B f hB hf
  obtain ⟨rs, hrs, hrle, hrlt⟩ := dimCover H B i hB hi
  obtain ⟨cs, hcs, hcle, hclt⟩ := dimCover W B j hB hj
  simp only [tiledTriples, List.mem_flatMap, List.mem_map]
  refine ⟨fs, hfs, rs, hrs, cs, hcs, f, ?_, i, ?_, j, ?_, rfl⟩
  · rw [mem_range'_iff]
    constructor
    · exact hfle
    · have : min (fs + B) F ≤ fs + B := Nat.min_le_left _ _
      omega
  · rw [mem_range'_iff]
    constructor
    · exact hrle
    · have : min (rs + B) H ≤ rs + B := Nat.min_le_left _ _
      omega
  · rw [mem_range'_iff]
    constructor
    · exact hcle
    · have : min (cs + B) W ≤ cs + B := Nat.min_le_left _ _
      omega

/-- Per-element value of the tiled convolution: identical to the direct
per-element sum, whatever block size the engine is configured with. -/
theorem conv2DTiled_get (ce : ConvolutionEngine) (input : FeatureMap) (kernel : Kernel)
    (bias : List ℚ) (config : Conv2DConfig) (f i j : Nat) (hf : f < kernel.filters)
    (hi : i < convOutH input kernel config) (hj : j < convOutW input kernel config) :
    (conv2DTiled ce input kernel bias config).get f i j
      = convValue (convPadded input config) kernel config f i j + bias.getD f 0 := by
  have hB : 0 < (if ce.blockSize = 0 then 32 else ce.blockSize) := by
    by_cases h : ce.blockSize = 0
    · rw [if_pos h]
      omega
    · rw [if_neg h]
      omega
  show (writeSweep (tiledTriples kernel.filters (convOutH input kernel config)
      (convOutW input kernel config) (if ce.blockSize = 0 then 32 else ce.blockSize))
      (fun f' i' j' => convValue (convPadded input config) kernel config f' i' j' + bias.getD f' 0)
      (NewFeatureMap (convOutH input kernel config) (convOutW input kernel config)
        kernel.filters)).get f i j = _
  exact writeSweep_get_of_mem kernel.filters (convOutH input kernel config)
    (convOutW input kernel config) _ _ _ rfl rfl (by rw [NewFeatureMap_length])
    (tiledTriples_bounds _ _ _ _) f i j hf hi hj
    (mem_tiledTriples _ _ _ _ f i j hB hf hi hj)

theorem conv2DTiled_dims (ce : ConvolutionEngine) (input : FeatureMap) (kernel : Kernel)
    (bias : List ℚ) (config : Conv2DConfig) :
    (conv2DTiled ce input kernel bias config).height = convOutH input kernel config ∧
    (conv2DTiled ce input kernel bias config).width = convOutW input kernel config ∧
    (conv2DTiled ce input kernel bias config).channels = kernel.filters := by
  have := writeSweep_dims (tiledTriples kernel.filters (convOutH input kernel config)
      (convOutW input kernel config) (if ce.blockSize = 0 then 32 else ce.blockSize))
    (fun f' i' j' => convValue (convPadded input config) kernel config f' i' j' + bias.getD f' 0)
    (NewFeatureMap (convOutH input kernel config) (convOutW input kernel config) kernel.filters)
  exact ⟨this.1, this.2.1, this.2.2.1⟩

/-- C2. Under a passing validation, the direct, filter-parallel (in any
worker completion order) and cache-tiled strategies produce outputs of the
same dimensions that agree at every element — exactly in this rational
model, hence a fortiori within the 1e-6 tolerance. -/
theorem conv_strategies_equiv_c2 (order : List Nat) (ce : ConvolutionEngine)
    (input : FeatureMap) (kernel : Kernel) (bias : List ℚ) (config : Conv2DConfig)
    (hv : validateConv2DInputs input kernel bias config = none)
    (hperm : order.Perm (List.range kernel.filters)) :
    ∃ out pout, Conv2D input kernel bias config = .ok out ∧
      Conv2DParallel order input kernel bias config = .ok pout ∧
      pout.height = out.height ∧ pout.width = out.width ∧ pout.channels = out.channels ∧
      (conv2DTiled ce input kernel bias config).height = out.height ∧
      (conv2DTiled ce input kernel bias config).width = out.width ∧
      (conv2DTiled ce input kernel bias config).channels = out.channels ∧
      ∀ f i j, f < kernel.filters → i < out.height → j < out.width →
        pout.get f i j = out.get f i j ∧
        (conv2DTiled ce input kernel bias config).get f i j = out.get f i j ∧
        |pout.get f i j - out.get f i j| ≤ 1 / 1000000 ∧
        |(conv2DTiled ce input kernel bias config).get f i j - out.get f i j| ≤ 1 / 1000000 := by
  refine ⟨_, _, Conv2D_eq_ok input kernel bias config hv,
    Conv2DParallel_eq_ok order input kernel bias config hv, ?_⟩
  set OH := convOutH input kernel config
  set OW := convOutW input kernel config
  set v : Nat → Nat → Nat → ℚ :=
    fun f' i' j' => convValue (convPadded input config) kernel config f' i' j' + bias.getD f' 0
  set base := NewFeatureMap OH OW kernel.filters with hbase
  have hdimsD := writeSweep_dims (tripleList kernel.filters OH OW) v base
  have hdimsP := writeSweep_dims (order.flatMap (fun f => filterTriples f OH OW)) v base
  have htd := conv2DTiled_dims ce input kernel bias config
  have houtH : (writeSweep (tripleList kernel.filters OH OW) v base).height = OH := by
    rw [hdimsD.1, hbase]
    exact rfl
  have houtW : (writeSweep (tripleList kernel.filters OH OW) v base).width = OW := by
    rw [hdimsD.2.1, hbase]
    exact rfl
  refine ⟨?_, ?_, ?_, ?_, ?_, ?_, ?_⟩
  · rw [hdimsP.1, houtH, hbase]
    exact rfl
  · rw [hdimsP.2.1, houtW, hbase]
    exact rfl
  · rw [hdimsP.2.2.1, hdimsD.2.2.1]
  · rw [htd.1, houtH]
  · rw [htd.2.1, houtW]
  · rw [htd.2.2, hdimsD.2.2.1, hbase]
    exact rfl
  · intro f i j hf hi hj
    rw [houtH] at hi
    rw [houtW] at hj
    have hdirect : (writeSweep (tripleList kernel.filters OH OW) v base).get f i j = v f i j :=
      writeSweep_tripleList_get kernel.filters OH OW v base rfl rfl
        (by rw [hbase, NewFeatureMap_length]) f i j hf hi hj
    have hparallel : (writeSweep (order.flatMap (fun f' => filterTriples f' OH OW)) v base).get f i j
        = v f i j := by
      apply writeSweep_get_of_mem kernel.filters OH OW _ v base rfl rfl
        (by rw [hbase, NewFeatureMap_length]) ?_ f i j hf hi hj ?_
      · intro t ht
        rw [List.mem_flatMap] at ht
        obtain ⟨f', hf', htt⟩ := ht
        have hb := (mem_filterTriples f' OH OW t).mp htt
        have : f' ∈ List.range kernel.filters := hperm.mem_iff.mp hf'
        rw [List.mem_range] at this
        exact ⟨by omega, hb.2.1, hb.2.2⟩
      · rw [List.mem_flatMap]
        refine ⟨f, ?_, ?_⟩
        · exact hperm.mem_iff.mpr (List.mem_range.mpr hf)
        · rw [mem_filterTriples]
          exact ⟨rfl, hi, hj⟩
    have htiled := conv2DTiled_get ce input kernel bias config f i j hf hi hj
    refine ⟨?_, ?_, ?_, ?_⟩
    · rw [hparallel, hdirect]
    · rw [htiled, hdirect]
    · rw [hparallel, hdirect, sub_self, abs_zero]
      norm_num
    · rw [htiled, hdirect, sub_self, abs_zero]
      norm_num

/-- C2 witness: the three strategies on the 3x3 all-ones example, with the
single filter processed in the only possible completion order. -/
theorem conv_strategies_equiv_c2_witness :
    validateConv2DInputs (FeatureMap.mk 3 3 1 (List.replicate 9 1))
      (Kernel.mk 3 1 1 (List.replicate 9 1)) [(0 : ℚ)] (Conv2DConfig.mk 0 1) = none ∧
    ([0] : List Nat).Perm (List.range 1) ∧
    (∃ out pout, Conv2D (FeatureMap.mk 3 3 1 (List.replicate 9 1))
        (Kernel.mk 3 1 1 (List.replicate 9 1)) [(0 : ℚ)] (Conv2DConfig.mk 0 1) = .ok out ∧
      Conv2DParallel [0] (FeatureMap.mk 3 3 1 (List.replicate 9 1))
        (Kernel.mk 3 1 1 (List.replicate 9 1)) [(0 : ℚ)] (Conv2DConfig.mk 0 1) = .ok pout ∧
      pout.height = out.height ∧ pout.width = out.width ∧ pout.channels = out.channels ∧
      (conv2DTiled (ConvolutionEngine.mk true 0 0) (FeatureMap.mk 3 3 1 (List.replicate 9 1))
        (Kernel.mk 3 1 1 (List.replicate 9 1)) [(0 : ℚ)] (Conv2DConfig.mk 0 1)).height = out.height ∧
      (conv2DTiled (ConvolutionEngine.mk true 0 0) (FeatureMap.mk 3 3 1 (List.replicate 9 1))
        (Kernel.mk 3 1 1 (List.replicate 9 1)) [(0 : ℚ)] (Conv2DConfig.mk 0 1)).width = out.width ∧
      (conv2DTiled (ConvolutionEngine.mk true 0 0) (FeatureMap.mk 3 3 1 (List.replicate 9 1))
        (Kernel.mk 3 1 1 (List.replicate 9 1)) [(0 : ℚ)] (Conv2DConfig.mk 0 1)).channels = out.channels ∧
      ∀ f i j, f < 1 → i < out.height → j < out.width →
        pout.get f i j = out.get f i j ∧
        (conv2DTiled (ConvolutionEngine.mk true 0 0) (FeatureMap.mk 3 3 1 (List.replicate 9 1))
          (Kernel.mk 3 1 1 (List.replicate 9 1)) [(0 : ℚ)] (Conv2DConfig.mk 0 1)).get f i j = out.get f i j ∧
        |pout.get f i j - out.get f i j| ≤ 1 / 1000000 ∧
        |(conv2DTiled (ConvolutionEngine.mk true 0 0) (FeatureMap.mk 3 3 1 (List.replicate 9 1))
          (Kernel.mk 3 1 1 (List.replicate 9 1)) [(0 : ℚ)] (Conv2DConfig.mk 0 1)).get f i j - out.get f i j| ≤ 1 / 1000000) :=
  ⟨by decide, by decide,
    conv_strategies_equiv_c2 [0] (ConvolutionEngine.mk true 0 0)
      (FeatureMap.mk 3 3 1 (List.replicate 9 1)) (Kernel.mk 3 1 1 (List.replicate 9 1))
      [(0 : ℚ)] (Conv2DConfig.mk 0 1) (by decide) (by decide)⟩

theorem Clone_length (fm : FeatureMap) :
    fm.Clone.data.length = fm.height * fm.width * fm.channels := by
  simp [FeatureMap.Clone]

theorem ite_neg_eq_max (t : ℚ) : (if t < 0 then (0 : ℚ) else t) = max 0 t := by
  rcases le_or_lt 0 t with h | h
  · rw [if_neg (not_lt.mpr h), max_eq_right h]
  · rw [if_pos h, max_eq_left (le_of_lt h)]

/-- C3. With all four parameter arrays matching the channel count, both
batch-norm variants return ok and set every pixel of channel c to
`max(0, scale[c]*((x - mean[c])/sqrt(variance[c]+epsilon)) + shift[c])`:
the batch-norm formula applied per pixel with an unconditional fused ReLU. -/
theorem batchNormalize_formula_c3 (sq : ℚ → ℚ) (fm : FeatureMap) (params : BatchNormParams)
    (hmean : params.mean.length = fm.channels)
    (hvar : params.variance.length = fm.channels)
    (hscale : params.scale.length = fm.channels)
    (hshift : params.shift.length = fm.channels)
    (hdata : fm.data.length = fm.height * fm.width * fm.channels) :
    ∃ out inout,
      BatchNormalize sq fm params = .ok out ∧
      BatchNormalizeInPlace sq fm params = .ok inout ∧
      (∀ c h w, c < fm.channels → h < fm.height → w < fm.width →
        out.get c h w = max 0 (params.scale.getD c 0 *
          ((fm.get c h w - params.mean.getD c 0) / sq (params.variance.getD c 0 + params.epsilon))
          + params.shift.getD c 0)) ∧
      (∀ c h w, c < fm.channels → h < fm.height → w < fm.width →
        inout.get c h w = max 0 (params.scale.getD c 0 *
          ((fm.get c h w - params.mean.getD c 0) / sq (params.variance.getD c 0 + params.epsilon))
          + params.shift.getD c 0)) := by
  have hcheck : ¬ params.mean.length ≠ fm.channels := by omega
  refine ⟨writeSweep (tripleList fm.channels fm.height fm.width)
      (fun c h w => bnTransform sq params c (fm.get c h w)) fm.Clone,
    sweepInPlace (tripleList fm.channels fm.height fm.width)
      (fun c _ _ val => bnTransform sq params c val) fm, ?_, ?_, ?_, ?_⟩
  · unfold BatchNormalize
    rw [if_neg hcheck]
  · unfold BatchNormalizeInPlace
    rw [if_neg hcheck]
  · intro c h w hc hh hw
    rw [writeSweep_tripleList_get fm.channels fm.height fm.width _ fm.Clone rfl rfl
      (by rw [Clone_length]) c h w hc hh hw]
    unfold bnTransform
    rw [ite_neg_eq_max]
  · intro c h w hc hh hw
    rw [sweepInPlace_tripleList_get fm.channels fm.height fm.width _ fm rfl rfl
      (by omega) c h w hc hh hw]
    unfold bnTransform
    rw [ite_neg_eq_max]

/-- C3 witness: a 1x1 single-channel map with value 2, identity square
root, unit scale, zero mean/shift, epsilon 1. -/
theorem batchNormalize_formula_c3_witness :
    (BatchNormParams.mk [0] [0] [1] [0] 1).mean.length = (FeatureMap.mk 1 1 1 [2]).channels ∧
    (BatchNormParams.mk [0] [0] [1] [0] 1).variance.length = (FeatureMap.mk 1 1 1 [2]).channels ∧
    (BatchNormParams.mk [0] [0] [1] [0] 1).scale.length = (FeatureMap.mk 1 1 1 [2]).channels ∧
    (BatchNormParams.mk [0] [0] [1] [0] 1).shift.length = (FeatureMap.mk 1 1 1 [2]).channels ∧
    (FeatureMap.mk 1 1 1 [2]).data.length =
      (FeatureMap.mk 1 1 1 [2]).height * (FeatureMap.mk 1 1 1 [2]).width *
        (FeatureMap.mk 1 1 1 [2]).channels ∧
    (∃ out inout,
      BatchNormalize (fun x => x) (FeatureMap.mk 1 1 1 [2]) (BatchNormParams.mk [0] [0] [1] [0] 1) = .ok out ∧
      BatchNormalizeInPlace (fun x => x) (FeatureMap.mk 1 1 1 [2]) (BatchNormParams.mk [0] [0] [1] [0] 1) = .ok inout ∧
      (∀ c h w, c < 1 → h < 1 → w < 1 →
        out.get c h w = max 0 (((BatchNormParams.mk [0] [0] [1] [0] 1).scale.getD c 0) *
          (((FeatureMap.mk 1 1 1 [2]).get c h w - (BatchNormParams.mk [0] [0] [1] [0] 1).mean.getD c 0) /
            (((BatchNormParams.mk [0] [0] [1] [0] 1).variance.getD c 0 + 1)))
          + (BatchNormParams.mk [0] [0] [1] [0] 1).shift.getD c 0)) ∧
      (∀ c h w, c < 1 → h < 1 → w < 1 →
        inout.get c h w = max 0 (((BatchNormParams.mk [0] [0] [1] [0] 1).scale.getD c 0) *
          (((FeatureMap.mk 1 1 1 [2]).get c h w - (BatchNormParams.mk [0] [0] [1] [0] 1).mean.getD c 0) /
            (((BatchNormParams.mk [0] [0] [1] [0] 1).variance.getD c 0 + 1)))
          + (BatchNormParams.mk [0] [0] [1] [0] 1).shift.getD c 0))) :=
  ⟨rfl, rfl, rfl, rfl, rfl,
    batchNormalize_formula_c3 (fun x => x) (FeatureMap.mk 1 1 1 [2])
      (BatchNormParams.mk [0] [0] [1] [0] 1) rfl rfl rfl rfl rfl⟩

/-- C4 counterexample: on an invalid configuration (stride 0) Conv2D does
not return any value to the caller — it aborts with a panic, so the claim
that failures are surfaced as recoverable error values is false. -/
theorem conv_error_counterexample_c4 :
    (Conv2D (FeatureMap.mk 1 1 1 [0]) (Kernel.mk 1 1 1 [1]) [(0 : ℚ)]
      (Conv2DConfig.mk 0 0)).isPanic = true := by decide

/-- C4 amended: every invalid configuration is detected by the typed
validators before any computation begins, but Conv2D, Conv2DParallel and
Pooling2D surface the typed error by panicking with it rather than
returning it. -/
theorem conv_pool_validation_panic_c4 :
    (∀ input kernel bias config err,
      validateConv2DInputs input kernel bias config = some err →
        Conv2D input kernel bias config = .panicked err) ∧
    (∀ order input kernel bias config err,
      validateConv2DInputs input kernel bias config = some err →
        Conv2DParallel order input kernel bias config = .panicked err) ∧
    (∀ input config err,
      validatePoolingInputs input config = some err →
        Pooling2D input config = .panicked err) := by
  refine ⟨?_, ?_, ?_⟩
  · intro input kernel bias config err h
    unfold Conv2D
    rw [h]
  · intro order input kernel bias config err h
    unfold Conv2DParallel
    rw [h]
  · intro input config err h
    unfold Pooling2D
    rw [h]

/-- C4 amended witness: stride-0 convolution and stride-0 pooling both
fail validation and panic with the matching typed error. -/
theorem conv_pool_validation_panic_c4_witness :
    validateConv2DInputs (FeatureMap.mk 1 1 1 [0]) (Kernel.mk 1 1 1 [1]) [(0 : ℚ)]
      (Conv2DConfig.mk 0 0) = some .strideNonPositive ∧
    Conv2D (FeatureMap.mk 1 1 1 [0]) (Kernel.mk 1 1 1 [1]) [(0 : ℚ)]
      (Conv2DConfig.mk 0 0) = .panicked .strideNonPositive ∧
    validatePoolingInputs (FeatureMap.mk 1 1 1 [0])
      (PoolingConfig.mk 1 0 .maxPooling) = some .strideNonPositive ∧
    Pooling2D (FeatureMap.mk 1 1 1 [0])
      (PoolingConfig.mk 1 0 .maxPooling) = .panicked .strideNonPositive :=
  ⟨by decide,
    conv_pool_validation_panic_c4.1 (FeatureMap.mk 1 1 1 [0]) (Kernel.mk 1 1 1 [1])
      [(0 : ℚ)] (Conv2DConfig.mk 0 0) .strideNonPositive (by decide),
    by decide,
    conv_pool_validation_panic_c4.2.2 (FeatureMap.mk 1 1 1 [0])
      (PoolingConfig.mk 1 0 .maxPooling) .strideNonPositive (by decide)⟩

theorem goMax_init_le (l : List ℚ) (a : ℚ) :
    a ≤ l.foldl (fun m v => if m < v then v else m) a := by
  induction l generalizing a with
  | nil => exact le_refl a
  | cons v l ih =>
    refine le_trans ?_ (ih (if a < v then v else a))
    by_cases h : a < v
    · rw [if_pos h]
      exact le_of_lt h
    · rw [if_neg h]

theorem goMax_mem_le (l : List ℚ) (a : ℚ) :
    ∀ x ∈ l, x ≤ l.foldl (fun m v => if m < v then v else m) a := by
  induction l generalizing a with
  | nil => intro x hx; cases hx
  | cons v l ih =>
    intro x hx
    rcases List.mem_cons.mp hx with rfl | hx'
    · refine le_trans ?_ (goMax_init_le l (if a < x then x else a))
      by_cases h : a < x
      · rw [if_pos h]
      · rw [if_neg h]
        exact le_of_not_lt h
    · exact ih (if a < v then v else a) x hx'

theorem getD_map_lt (f : ℚ → ℚ) (l : List ℚ) (i : Nat) (h : i < l.length) :
    (l.map f).getD i 0 = f (l.getD i 0) := by
  simp [List.getD_eq_getElem?_getD, List.getElem?_map, List.getElem?_eq_getElem h]

theorem getD_mem_of_lt (l : List ℚ) (i : Nat) (h : i < l.length) : l.getD i 0 ∈ l := by
  have he : l.getD i 0 = l[i] := by
    simp [List.getD_eq_getElem?_getD, List.getElem?_eq_getElem h]
  rw [he]
  exact List.getElem_mem h

theorem sum_map_div (l : List ℚ) (s : ℚ) : (l.map (fun v => v / s)).sum = l.sum / s := by
  induction l with
  | nil => simp
  | cons x l ih => simp [ih, add_div]

/-- C5. For nonempty input and any strictly monotone positive model of
exp, Softmax sums to exactly 1 (hence within 1e-6), every entry is
strictly positive, the strict order of entries matches the input's, and
every argument handed to exp is nonpositive (the max-subtraction that
keeps the float computation finite); the normalizing division is guarded
by the positive-sum test, which the positivity of exp discharges. -/
theorem softmax_stable_c5 (e : ℚ → ℚ) (input : List ℚ)
    (hne : input ≠ [])
    (hpos : ∀ x : ℚ, 0 < e x)
    (hmono : StrictMono e) :
    (Softmax e input).length = input.length ∧
    (Softmax e input).sum = 1 ∧
    |(Softmax e input).sum - 1| ≤ 1 / 1000000 ∧
    (∀ i, i < input.length → 0 < (Softmax e input).getD i 0) ∧
    (∀ i j, i < input.length → j < input.length →
      ((Softmax e input).getD i 0 < (Softmax e input).getD j 0 ↔
        input.getD i 0 < input.getD j 0)) ∧
    (∀ i, i < input.length → input.getD i 0 - goMaxList (input.headD 0) input.tail ≤ 0) := by
  match input, hne with
  | x :: rest, _ =>
  set M := goMaxList x rest with hM
  have hmax : ∀ v ∈ x :: rest, v ≤ M := by
    intro v hv
    rcases List.mem_cons.mp hv with rfl | hv'
    · exact goMax_init_le rest v
    · exact goMax_mem_le rest x v hv'
  set exps := (x :: rest).map (fun v => e (v - M)) with hexps
  have hexps_pos : ∀ y ∈ exps, 0 < y := by
    intro y hy
    rw [hexps] at hy
    obtain ⟨v, _, rfl⟩ := List.mem_map.mp hy
    exact hpos _
  have hS : 0 < exps.sum := List.sum_pos exps hexps_pos (by rw [hexps]; simp)
  have hsoftmax : Softmax e (x :: rest) = exps.map (fun v => v / exps.sum) := by
    show (if 0 < exps.sum then exps.map (fun v => v / exps.sum) else exps)
      = exps.map (fun v => v / exps.sum)
    rw [if_pos hS]
  have hlen : exps.length = (x :: rest).length := by rw [hexps, List.length_map]
  have hgetD : ∀ i, i < (x :: rest).length →
      (Softmax e (x :: rest)).getD i 0 = e ((x :: rest).getD i 0 - M) / exps.sum := by
    intro i hi
    rw [hsoftmax, getD_map_lt _ _ _ (by rw [hlen]; exact hi), hexps,
      getD_map_lt _ _ _ hi]
  refine ⟨?_, ?_, ?_, ?_, ?_, ?_⟩
  · rw [hsoftmax, List.length_map, hlen]
  · rw [hsoftmax, sum_map_div, div_self (ne_of_gt hS)]
  · rw [hsoftmax, sum_map_div, div_self (ne_of_gt hS)]
    simp
  · intro i hi
    rw [hgetD i hi]
    exact div_pos (hpos _) hS
  · intro i j hi hj
    rw [hgetD i hi, hgetD j hj]
    rw [div_lt_div_iff_of_pos_right hS, hmono.lt_iff_lt, sub_lt_sub_iff_right]
  · intro i hi
    have hmem : (x :: rest).getD i 0 ∈ x :: rest := getD_mem_of_lt _ i hi
    have : (x :: rest).getD i 0 ≤ M := hmax _ hmem
    show (x :: rest).getD i 0 - goMaxList ((x :: rest).headD 0) (x :: rest).tail ≤ 0
    have hhead : (x :: rest).headD 0 = x := rfl
    have htail : (x :: rest).tail = rest := rfl
    rw [hhead, htail, ← hM]
    exact sub_nonpos.mpr this

theorem expWitness_pos (x : ℚ) : 0 < expWitness x := by
  unfold expWitness
  by_cases h : x < 0
  · rw [if_pos h]
    exact one_div_pos.mpr (by linarith)
  · rw [if_neg h]
    push_neg at h
    linarith

theorem expWitness_mono : StrictMono expWitness := by
  intro a b hab
  unfold expWitness
  by_cases ha : a < 0
  · by_cases hb : b < 0
    · rw [if_pos ha, if_pos hb]
      exact one_div_lt_one_div_of_lt (by linarith) (by linarith)
    · rw [if_pos ha, if_neg hb]
      push_neg at hb
      have h1 : 1 / (1 - a) < 1 := by
        rw [div_lt_one (by linarith)]
        linarith
      linarith
  · by_cases hb : b < 0
    · exact absurd hab (by push_neg at ha; intro h; linarith)
    · rw [if_neg ha, if_neg hb]
      linarith

/-- C5 witness: the spec's own numerical-stability case `[1000,1001,1002]`
with the concrete monotone positive exp model. -/
theorem softmax_stable_c5_witness :
    ([(1000 : ℚ), 1001, 1002] ≠ []) ∧
    (∀ x : ℚ, 0 < expWitness x) ∧
    StrictMono expWitness ∧
    ((Softmax expWitness [(1000 : ℚ), 1001, 1002]).length = 3 ∧
      (Softmax expWitness [(1000 : ℚ), 1001, 1002]).sum = 1 ∧
      |(Softmax expWitness [(1000 : ℚ), 1001, 1002]).sum - 1| ≤ 1 / 1000000 ∧
      (∀ i, i < 3 → 0 < (Softmax expWitness [(1000 : ℚ), 1001, 1002]).getD i 0) ∧
      (∀ i j, i < 3 → j < 3 →
        ((Softmax expWitness [(1000 : ℚ), 1001, 1002]).getD i 0 <
            (Softmax expWitness [(1000 : ℚ), 1001, 1002]).getD j 0 ↔
          ([(1000 : ℚ), 1001, 1002]).getD i 0 < ([(1000 : ℚ), 1001, 1002]).getD j 0)) ∧
      (∀ i, i < 3 → ([(1000 : ℚ), 1001, 1002]).getD i 0 -
        goMaxList (([(1000 : ℚ), 1001, 1002]).headD 0) (([(1000 : ℚ), 1001, 1002]).tail) ≤ 0)) :=
  ⟨by decide, expWitness_pos, expWitness_mono,
    softmax_stable_c5 expWitness [(1000 : ℚ), 1001, 1002] (by decide)
      expWitness_pos expWitness_mono⟩

/-- C6. StochasticPooling is a pure function of its input (two runs agree
by reflexivity) and every output element is the first positive value of
its window in row-then-column scan order, or 0 when the window has no
positive value — never a random draw. -/
theorem stochasticPooling_first_positive_c6 (input : FeatureMap) (kernelSize stride : Nat) :
    (∀ c i j, c < input.channels →
      i < (input.height - kernelSize) / stride + 1 →
      j < (input.width - kernelSize) / stride + 1 →
      (StochasticPooling input kernelSize stride).get c i j =
        ((windowVals input c (i * stride) (i * stride + kernelSize)
          (j * stride) (j * stride + kernelSize)).filter (fun v => decide (0 < v))).headD 0) ∧
    StochasticPooling input kernelSize stride = StochasticPooling input kernelSize stride := by
  refine ⟨?_, rfl⟩
  intro c i j hc hi hj
  rw [show StochasticPooling input kernelSize stride =
    writeSweep (tripleList input.channels ((input.height - kernelSize) / stride + 1)
      ((input.width - kernelSize) / stride + 1))
    (fun c' i' j' =>
      let values := (windowVals input c' (i' * stride) (i' * stride + kernelSize)
        (j' * stride) (j' * stride + kernelSize)).filter (fun v => decide (0 < v))
      if values.length = 0 ∨ values.sum = 0 then 0 else values.headD 0)
    (NewFeatureMap ((input.height - kernelSize) / stride + 1)
      ((input.width - kernelSize) / stride + 1) input.channels) from rfl]
  rw [writeSweep_tripleList_get input.channels ((input.height - kernelSize) / stride + 1)
    ((input.width - kernelSize) / stride + 1) _ _ rfl rfl (by rw [NewFeatureMap_length])
    c i j hc hi hj]
  show (let values := (windowVals input c (i * stride) (i * stride + kernelSize)
      (j * stride) (j * stride + kernelSize)).filter (fun v => decide (0 < v))
    if values.length = 0 ∨ values.sum = 0 then 0 else values.headD 0)
    = ((windowVals input c (i * stride) (i * stride + kernelSize)
      (j * stride) (j * stride + kernelSize)).filter (fun v => decide (0 < v))).headD 0
  simp only
  generalize hvals : (windowVals input c (i * stride) (i * stride + kernelSize)
    (j * stride) (j * stride + kernelSize)).filter (fun v => decide (0 < v)) = vals
  rcases vals with _ | ⟨v, tl⟩
  · simp
  · have hpos : ∀ y ∈ v :: tl, 0 < y := by
      intro y hy
      rw [← hvals] at hy
      exact of_decide_eq_true (List.mem_filter.mp hy).2
    have hsum : 0 < (v :: tl).sum := List.sum_pos _ hpos (by simp)
    rw [if_neg (by
      push_neg
      refine ⟨by simp, ne_of_gt hsum⟩)]

/-- C6 witness: a 2x2 window scanning `[-1, 3, 0, 7]` row-major; the first
positive value is picked deterministically. -/
theorem stochasticPooling_first_positive_c6_witness :
    0 < 1 ∧ 0 < 1 ∧ 0 < 1 ∧
    (StochasticPooling (FeatureMap.mk 2 2 1 [-1, 3, 0, 7]) 2 2).get 0 0 0 =
      ((windowVals (FeatureMap.mk 2 2 1 [-1, 3, 0, 7]) 0 0 2 0 2).filter
        (fun v => decide (0 < v))).headD 0 :=
  ⟨by decide, by decide, by decide,
    (stochasticPooling_first_positive_c6 (FeatureMap.mk 2 2 1 [-1, 3, 0, 7]) 2 2).1
      0 0 0 (by decide) (by decide) (by decide)⟩

/-- The depthwise inner sum in spec form over the zero-padded input. -/
theorem dwValue_eq_paddedVal_sum (input : FeatureMap) (kernel : Kernel)
    (config : Conv2DConfig) (c i j : Nat)
    (hstride : 0 < config.stride)
    (hsH : kernel.size ≤ input.height + 2 * config.padding)
    (hsW : kernel.size ≤ input.width + 2 * config.padding)
    (hc : c < input.channels)
    (hi : i < convOutH input kernel config) (hj : j < convOutW input kernel config) :
    dwValue (convPadded input config) kernel config c i j
      = ∑ m ∈ Finset.range kernel.size, ∑ n ∈ Finset.range kernel.size,
          paddedVal input config.padding c (i * config.stride + m) (j * config.stride + n) *
            kernel.getWeight c c m n := by
  have hiH : i < (input.height + 2 * config.padding - kernel.size) / config.stride + 1 := by
    have := hi
    unfold convOutH at this
    rw [convPadded_height] at this
    exact this
  have hjW : j < (input.width + 2 * config.padding - kernel.size) / config.stride + 1 := by
    have := hj
    unfold convOutW at this
    rw [convPadded_width] at this
    exact this
  unfold dwValue
  rw [sumRange_eq_finsetSum]
  refine Finset.sum_congr rfl ?_
  intro m hm
  rw [sumRange_eq_finsetSum]
  refine Finset.sum_congr rfl ?_
  intro n hn
  have hm' : m < kernel.size := Finset.mem_range.mp hm
  have hn' : n < kernel.size := Finset.mem_range.mp hn
  congr 1
  have hx : i * config.stride + m < input.height + 2 * config.padding :=
    conv_coord_lt _ _ _ _ _ hstride hsH hiH hm'
  have hy : j * config.stride + n < input.width + 2 * config.padding :=
    conv_coord_lt _ _ _ _ _ hstride hsW hjW hn'
  by_cases hp : 0 < config.padding
  · show (convPadded input config).get c _ _ = _
    unfold convPadded
    rw [if_pos hp]
    exact PadFeatureMap_get input config.padding c _ _ hc hx hy
  · have hp0 : config.padding = 0 := by omega
    show (convPadded input config).get c _ _ = _
    unfold convPadded
    rw [if_neg hp, hp0]
    unfold paddedVal
    rw [if_pos (by omega)]
    simp

theorem DepthwiseConv2D_eq_ok (input : FeatureMap) (kernel : Kernel) (bias : List ℚ)
    (config : Conv2DConfig) (hfc : kernel.filters = input.channels) :
    DepthwiseConv2D input kernel bias config = .ok (dwOut input kernel bias config) := by
  unfold DepthwiseConv2D
  rw [if_neg (by omega)]
  exact rfl

theorem dwOut_get (input : FeatureMap) (kernel : Kernel) (bias : List ℚ)
    (config : Conv2DConfig)
    (hfc : kernel.filters = input.channels)
    (hstride : 0 < config.stride)
    (hsH : kernel.size ≤ input.height + 2 * config.padding)
    (hsW : kernel.size ≤ input.width + 2 * config.padding)
    (c i j : Nat) (hc : c < input.channels)
    (hi : i < (input.height + 2 * config.padding - kernel.size) / config.stride + 1)
    (hj : j < (input.width + 2 * config.padding - kernel.size) / config.stride + 1) :
    (dwOut input kernel bias config).get c i j = bias.getD c 0 +
      ∑ m ∈ Finset.range kernel.size, ∑ n ∈ Finset.range kernel.size,
        paddedVal input config.padding c (i * config.stride + m) (j * config.stride + n) *
          kernel.getWeight c c m n := by
  have hiH : i < convOutH input kernel config := by
    unfold convOutH
    rw [convPadded_height]
    exact hi
  have hjW : j < convOutW input kernel config := by
    unfold convOutW
    rw [convPadded_width]
    exact hj
  unfold dwOut
  rw [writeSweep_tripleList_get input.channels (convOutH input kernel config)
    (convOutW input kernel config) _ _ rfl rfl
    (by rw [NewFeatureMap_length, hfc]) c i j hc hiH hjW]
  rw [dwValue_eq_paddedVal_sum input kernel config c i j hstride hsH hsW hc hiH hjW]
  exact add_comm _ _

/-- C7. When kernel.filters equals input.channels, DepthwiseConv2D returns
ok and every output element of channel c is bias[c] plus the convolution
of input channel c with the weights at (filter c, channel c) only; and
consequently two same-shaped calls whose inputs agree on channel c, whose
kernels agree on the (c,c) weight plane and whose biases agree at c
produce identical channel-c outputs — no other input channel's data and
no other filter's weights influence output channel c. -/
theorem depthwise_channel_isolation_c7 (input : FeatureMap) (kernel : Kernel)
    (bias : List ℚ) (config : Conv2DConfig)
    (hfc : kernel.filters = input.channels)
    (hstride : 0 < config.stride)
    (hsH : kernel.size ≤ input.height + 2 * config.padding)
    (hsW : kernel.size ≤ input.width + 2 * config.padding) :
    ∃ out, DepthwiseConv2D input kernel bias config = .ok out ∧
      (∀ c i j, c < input.channels →
        i < (input.height + 2 * config.padding - kernel.size) / config.stride + 1 →
        j < (input.width + 2 * config.padding - kernel.size) / config.stride + 1 →
        out.get c i j = bias.getD c 0 +
          ∑ m ∈ Finset.range kernel.size, ∑ n ∈ Finset.range kernel.size,
            paddedVal input config.padding c (i * config.stride + m) (j * config.stride + n) *
              kernel.getWeight c c m n) ∧
      (∀ (input2 : FeatureMap) (kernel2 : Kernel) (bias2 : List ℚ) (out2 : FeatureMap),
        input2.height = input.height → input2.width = input.width →
        input2.channels = input.channels →
        kernel2.size = kernel.size → kernel2.filters = kernel.filters →
        DepthwiseConv2D input2 kernel2 bias2 config = .ok out2 →
        ∀ c, c < input.channels →
          (∀ h w, input2.get c h w = input.get c h w) →
          (∀ m n, kernel2.getWeight c c m n = kernel.getWeight c c m n) →
          bias2.getD c 0 = bias.getD c 0 →
          ∀ i j, i < (input.height + 2 * config.padding - kernel.size) / config.stride + 1 →
            j < (input.width + 2 * config.padding - kernel.size) / config.stride + 1 →
            out2.get c i j = out.get c i j) := by
  refine ⟨dwOut input kernel bias config, DepthwiseConv2D_eq_ok input kernel bias config hfc,
    ?_, ?_⟩
  · intro c i j hc hi hj
    exact dwOut_get input kernel bias config hfc hstride hsH hsW c i j hc hi hj
  · intro input2 kernel2 bias2 out2 hh hw hc2 hks hkf hout2 c hc hagree hwagree hbias2 i j hi hj
    have hfc2 : kernel2.filters = input2.channels := by omega
    have hout2' : DepthwiseConv2D input2 kernel2 bias2 config
        = .ok (dwOut input2 kernel2 bias2 config) :=
      DepthwiseConv2D_eq_ok input2 kernel2 bias2 config hfc2
    have hsame : out2 = dwOut input2 kernel2 bias2 config := by
      rw [hout2] at hout2'
      exact (GoResult.ok.injEq _ _).mp hout2'
    rw [hsame]
    rw [dwOut_get input2 kernel2 bias2 config hfc2 hstride
      (by rw [hks, hh]; exact hsH) (by rw [hks, hw]; exact hsW) c i j
      (by rw [hc2]; exact hc) (by rw [hh, hks]; exact hi) (by rw [hw, hks]; exact hj)]
    rw [dwOut_get input kernel bias config hfc hstride hsH hsW c i j hc hi hj]
    rw [hbias2, hks]
    congr 1
    refine Finset.sum_congr rfl ?_
    intro m hm
    refine Finset.sum_congr rfl ?_
    intro n hn
    rw [hwagree m n]
    congr 1
    unfold paddedVal
    rw [hh, hw]
    by_cases hcen : config.padding ≤ i * config.stride + m ∧
        i * config.stride + m < config.padding + input.height ∧
        config.padding ≤ j * config.stride + n ∧
        j * config.stride + n < config.padding + input.width
    · rw [if_pos hcen, if_pos hcen, hagree]
    · rw [if_neg hcen, if_neg hcen]

/-- C7 witness: a two-channel 1x1 input with a two-filter 1x1 kernel;
each output channel is its own channel's value times its own diagonal
weight plus its own bias. -/
theorem depthwise_channel_isolation_c7_witness :
    (Kernel.mk 1 2 2 [10, 20, 30, 40]).filters = (FeatureMap.mk 1 1 2 [5, 7]).channels ∧
    0 < (Conv2DConfig.mk 0 1).stride ∧
    (Kernel.mk 1 2 2 [10, 20, 30, 40]).size ≤
      (FeatureMap.mk 1 1 2 [5, 7]).height + 2 * (Conv2DConfig.mk 0 1).padding ∧
    (Kernel.mk 1 2 2 [10, 20, 30, 40]).size ≤
      (FeatureMap.mk 1 1 2 [5, 7]).width + 2 * (Conv2DConfig.mk 0 1).padding ∧
    (∃ out, DepthwiseConv2D (FeatureMap.mk 1 1 2 [5, 7]) (Kernel.mk 1 2 2 [10, 20, 30, 40])
        [(1 : ℚ), 2] (Conv2DConfig.mk 0 1) = .ok out ∧
      (∀ c i j, c < 2 → i < 1 → j < 1 →
        out.get c i j = ([(1 : ℚ), 2]).getD c 0 +
          ∑ m ∈ Finset.range 1, ∑ n ∈ Finset.range 1,
            paddedVal (FeatureMap.mk 1 1 2 [5, 7]) 0 c (i * 1 + m) (j * 1 + n) *
              (Kernel.mk 1 2 2 [10, 20, 30, 40]).getWeight c c m n)) := by
  refine ⟨rfl, by decide, by decide, by decide, ?_⟩
  obtain ⟨out, h1, h2, h3⟩ := depthwise_channel_isolation_c7 (FeatureMap.mk 1 1 2 [5, 7])
    (Kernel.mk 1 2 2 [10, 20, 30, 40]) [(1 : ℚ), 2] (Conv2DConfig.mk 0 1)
    rfl (by decide) (by decide) (by decide)
  exact ⟨out, h1, h2⟩

theorem foldl_add_const_sq (m : ℚ) : ∀ (l : List ℚ) (z : ℚ), (∀ x ∈ l, x = m) →
    l.foldl (fun acc val => acc + (val - m) * (val - m)) z = z := by
  intro l
  induction l with
  | nil => intro z _; rfl
  | cons v rest ih =>
    intro z hall
    have hv : v = m := hall v (by simp)
    show rest.foldl (fun acc val => acc + (val - m) * (val - m)) (z + (v - m) * (v - m)) = z
    rw [hv, sub_self, mul_zero, add_zero]
    exact ih z (fun x hx => hall x (by simp [hx]))

theorem Sum_const (a : ℚ) : ∀ (l : List ℚ), (∀ x ∈ l, x = a) →
    Sum l = (l.length : ℚ) * a := by
  have haux : ∀ (l : List ℚ) (z : ℚ), (∀ x ∈ l, x = a) →
      l.foldl (fun s v => s + v) z = z + (l.length : ℚ) * a := by
    intro l
    induction l with
    | nil => intro z _; simp
    | cons v rest ih =>
      intro z hall
      have hv : v = a := hall v (by simp)
      show rest.foldl (fun s u => s + u) (z + v) = _
      rw [ih (z + v) (fun x hx => hall x (by simp [hx])), hv, List.length_cons]
      push_cast
      ring
  intro l hall
  have h0 := haux l 0 hall
  unfold Sum
  rw [h0, zero_add]

/-- All-equal slices have zero sample variance. -/
theorem Variance_const (l : List ℚ) (a : ℚ) (hall : ∀ x ∈ l, x = a) :
    Variance l = 0 := by
  unfold Variance
  by_cases hlen : l.length ≤ 1
  · rw [if_pos hlen]
  · rw [if_neg hlen]
    have hmean : Mean l = a := by
      unfold Mean
      rw [if_neg (by omega), Sum_const a l hall]
      have hne : (l.length : ℚ) ≠ 0 := by
        exact_mod_cast (by omega : l.length ≠ 0)
      rw [mul_comm, mul_div_assoc, div_self hne, mul_one]
    rw [hmean, foldl_add_const_sq a l 0 hall, zero_div]

/-- C8. With a square root that fixes 0: on any nonempty all-equal slice
both Normalize and NormalizeInPlace yield the all-zero slice (no NaN from
the 0/0 division); and whenever the standard deviation is nonzero, element
i of either result is (x[i] - mean)/std. -/
theorem normalize_zero_variance_c8 (sq : ℚ → ℚ) (hsq0 : sq 0 = 0) :
    (∀ (slice : List ℚ) (a : ℚ), slice ≠ [] → (∀ x ∈ slice, x = a) →
      Normalize sq slice = List.replicate slice.length 0 ∧
      NormalizeInPlace sq slice = List.replicate slice.length 0) ∧
    (∀ slice : List ℚ, StandardDeviation sq slice ≠ 0 → ∀ i, i < slice.length →
      (Normalize sq slice).getD i 0 = (slice.getD i 0 - Mean slice) / StandardDeviation sq slice ∧
      (NormalizeInPlace sq slice).getD i 0
        = (slice.getD i 0 - Mean slice) / StandardDeviation sq slice) := by
  constructor
  · intro slice a hne hall
    have hstd : StandardDeviation sq slice = 0 := by
      unfold StandardDeviation
      rw [Variance_const slice a hall, hsq0]
    have hlen : ¬ slice.length = 0 := by
      intro h
      exact hne (List.eq_nil_of_length_eq_zero h)
    constructor
    · unfold Normalize
      rw [if_neg hlen, if_pos hstd]
    · unfold NormalizeInPlace
      rw [if_neg hlen, if_pos hstd]
  · intro slice hstd i hi
    have hlen : ¬ slice.length = 0 := by omega
    constructor
    · unfold Normalize
      rw [if_neg hlen, if_neg hstd, getD_map_lt _ _ _ hi]
    · unfold NormalizeInPlace
      rw [if_neg hlen, if_neg hstd, getD_map_lt _ _ _ hi]

/-- C8 witness: the constant slice [5,5,5] with the identity square root. -/
theorem normalize_zero_variance_c8_witness :
    ((fun x : ℚ => x) 0 = 0) ∧
    ([(5 : ℚ), 5, 5] ≠ []) ∧ (∀ x ∈ [(5 : ℚ), 5, 5], x = 5) ∧
    (Normalize (fun x => x) [(5 : ℚ), 5, 5] = List.replicate 3 0 ∧
      NormalizeInPlace (fun x => x) [(5 : ℚ), 5, 5] = List.replicate 3 0) :=
  ⟨rfl, by decide, by decide,
    (normalize_zero_variance_c8 (fun x => x) rfl).1 [(5 : ℚ), 5, 5] 5 (by decide) (by decide)⟩

theorem argmaxLoop_spec (L : List ℚ) :
    ∀ (rest : List ℚ) (pos maxIdx : Nat) (maxVal : ℚ),
    L.drop pos = rest →
    maxIdx < pos →
    L.getD maxIdx 0 = maxVal →
    (∀ t, t < pos → L.getD t 0 ≤ maxVal) →
    (∀ t, t < maxIdx → L.getD t 0 < maxVal) →
    pos ≤ L.length →
    argmaxLoop rest pos maxIdx maxVal < L.length ∧
    (∀ t, t < L.length → L.getD t 0 ≤ L.getD (argmaxLoop rest pos maxIdx maxVal) 0) ∧
    (∀ t, t < argmaxLoop rest pos maxIdx maxVal →
      L.getD t 0 < L.getD (argmaxLoop rest pos maxIdx maxVal) 0) := by
  intro rest
  induction rest with
  | nil =>
    intro pos maxIdx maxVal hdrop hlt hval hle hstrict hpos
    have hlen : L.length ≤ pos := by
      have := congrArg List.length hdrop
      rw [List.length_drop] at this
      simp at this
      omega
    have hpe : pos = L.length := by omega
    refine ⟨by show maxIdx < L.length; omega, ?_, ?_⟩
    · intro t ht
      show L.getD t 0 ≤ L.getD maxIdx 0
      rw [hval]
      exact hle t (by omega)
    · intro t ht
      show L.getD t 0 < L.getD maxIdx 0
      rw [hval]
      exact hstrict t ht
  | cons v rest ih =>
    intro pos maxIdx maxVal hdrop hlt hval hle hstrict hpos
    have hplt : pos < L.length := by
      have := congrArg List.length hdrop
      rw [List.length_drop] at this
      simp at this
      omega
    have hcons : L.drop pos = L[pos] :: L.drop (pos + 1) :=
      List.drop_eq_getElem_cons hplt
    rw [hdrop] at hcons
    have hv : v = L[pos] := ((List.cons.injEq _ _ _ _).mp hcons.symm |>.1).symm
    have hrest : L.drop (pos + 1) = rest :=
      (List.cons.injEq _ _ _ _).mp hcons.symm |>.2
    have hgetpos : L.getD pos 0 = v := by
      rw [hv]
      simp [List.getD_eq_getElem?_getD, List.getElem?_eq_getElem hplt]
    have hunfold : argmaxLoop (v :: rest) pos maxIdx maxVal =
        if maxVal < v then argmaxLoop rest (pos + 1) pos v
        else argmaxLoop rest (pos + 1) maxIdx maxVal := rfl
    by_cases hcmp : maxVal < v
    · have := ih (pos + 1) pos v hrest (by omega) hgetpos
        (by
          intro t ht
          rcases Nat.lt_or_ge t pos with h | h
          · exact le_of_lt (lt_of_le_of_lt (hle t h) hcmp)
          · have : t = pos := by omega
            rw [this, hgetpos])
        (by
          intro t ht
          exact lt_of_le_of_lt (hle t ht) hcmp)
        (by omega)
      rw [hunfold, if_pos hcmp]
      exact this
    · have := ih (pos + 1) maxIdx maxVal hrest (by omega) hval
        (by
          intro t ht
          rcases Nat.lt_or_ge t pos with h | h
          · exact hle t h
          · have : t = pos := by omega
            rw [this, hgetpos]
            exact le_of_not_lt hcmp)
        hstrict
        (by omega)
      rw [hunfold, if_neg hcmp]
      exact this

/-- C9. Argmax of the empty slice is -1; for a nonempty slice it is the
index of a maximal value and every earlier element is strictly smaller
(first-occurrence tie break); `Argmax [1,3,2] = 1`; and the tensor-package
duplicate computes the same function. -/
theorem argmax_first_max_c9 :
    Argmax ([] : List ℚ) = -1 ∧
    (∀ slice : List ℚ, slice ≠ [] →
      ∃ r : Nat, Argmax slice = (r : Int) ∧ r < slice.length ∧
        (∀ t, t < slice.length → slice.getD t 0 ≤ slice.getD r 0) ∧
        (∀ t, t < r → slice.getD t 0 < slice.getD r 0)) ∧
    Argmax [(1 : ℚ), 3, 2] = 1 ∧
    (∀ slice : List ℚ, ArgmaxTensor slice = Argmax slice) := by
  refine ⟨rfl, ?_, by decide, ?_⟩
  · intro slice hne
    match slice, hne with
    | x :: rest, _ =>
      refine ⟨argmaxLoop rest 1 0 x, rfl, ?_⟩
      exact (argmaxLoop_spec (x :: rest) rest 1 0 x rfl (by omega) rfl
        (by
          intro t ht
          have : t = 0 := by omega
          rw [this]
          exact le_refl _)
        (by intro t ht; omega)
        (by simp)).imp_right (fun h => h)
  · intro slice
    cases slice <;> rfl

/-- C9 witness: the spec's example `[1,3,2]`. -/
theorem argmax_first_max_c9_witness :
    ([(1 : ℚ), 3, 2] ≠ []) ∧
    (∃ r : Nat, Argmax [(1 : ℚ), 3, 2] = (r : Int) ∧ r < 3 ∧
      (∀ t, t < 3 → ([(1 : ℚ), 3, 2]).getD t 0 ≤ ([(1 : ℚ), 3, 2]).getD r 0) ∧
      (∀ t, t < r → ([(1 : ℚ), 3, 2]).getD t 0 < ([(1 : ℚ), 3, 2]).getD r 0)) :=
  ⟨by decide, argmax_first_max_c9.2.1 [(1 : ℚ), 3, 2] (by decide)⟩

theorem convertLoop_spec : ∀ (l : List Int) (base : Nat),
    (∀ x ∈ l, x = 0 ∨ x = 1) → l.count 1 = 1 →
    ∃ k, k < l.length ∧ convertLoop l base = ((base + k : Nat) : Int) ∧
      (∀ t, t < l.length → l.getD t 0 = if t = k then 1 else 0) := by
  intro l
  induction l with
  | nil =>
    intro base _ hcount
    simp [List.count_nil] at hcount
  | cons v rest ih =>
    intro base hall hcount
    by_cases hv : v = 1
    · have hrest0 : rest.count 1 = 0 := by
        rw [List.count_cons] at hcount
        simp [hv] at hcount
        exact hcount
      have hnomem : (1 : Int) ∉ rest := List.count_eq_zero.mp hrest0
      refine ⟨0, by simp, ?_, ?_⟩
      · show (if v = 1 then ((base : Nat) : Int) else convertLoop rest (base + 1)) = _
        rw [if_pos hv]
        norm_num
      · intro t ht
        match t with
        | 0 =>
          rw [if_pos rfl]
          exact hv
        | Nat.succ t' =>
          rw [if_neg (by omega)]
          show rest.getD t' 0 = 0
          rcases Nat.lt_or_ge t' rest.length with h | h
          · have hmem : rest.getD t' 0 ∈ rest := by
              have he : rest.getD t' 0 = rest[t'] := by
                simp [List.getD_eq_getElem?_getD, List.getElem?_eq_getElem h]
              rw [he]
              exact List.getElem_mem h
            rcases hall _ (by simp [List.mem_cons]; right; exact hmem) with h0 | h1
            · exact h0
            · exact absurd (h1 ▸ hmem) hnomem
          · simp at ht
            omega
    · have hv0 : v = 0 := by
        rcases hall v (by simp) with h | h
        · exact h
        · exact absurd h hv
      have hrest1 : rest.count 1 = 1 := by
        rw [List.count_cons] at hcount
        simp [hv] at hcount
        exact hcount
      obtain ⟨k', hk', haux, hchar⟩ := ih (base + 1)
        (fun x hx => hall x (by simp [hx])) hrest1
      refine ⟨k' + 1, by simp; omega, ?_, ?_⟩
      · show (if v = 1 then ((base : Nat) : Int) else convertLoop rest (base + 1)) = _
        rw [if_neg hv, haux]
        congr 1
        omega
      · intro t ht
        match t with
        | 0 =>
          rw [if_neg (by omega)]
          exact hv0
        | Nat.succ t' =>
          show rest.getD t' 0 = _
          rw [hchar t' (by simp at ht; omega)]
          by_cases he : t' = k'
          · rw [if_pos he, if_pos (by omega)]
          · rw [if_neg he, if_neg (by omega)]

/-- C10. For every valid one-hot vector (entries 0/1 with exactly one 1),
converting to a class index and back yields the original vector. -/
theorem onehot_roundtrip_c10 (v : List Int) (hall : ∀ x ∈ v, x = 0 ∨ x = 1)
    (hcount : v.count 1 = 1) :
    ConvertClassIndexToOneHot (ConvertOneHotToClassIndex v) v.length = some v := by
  obtain ⟨k, hk, haux, hchar⟩ := convertLoop_spec v 0 hall hcount
  unfold ConvertOneHotToClassIndex
  rw [haux]
  have hzk : ((0 + k : Nat) : Int) = (k : Int) := by norm_num
  rw [hzk]
  unfold ConvertClassIndexToOneHot
  rw [if_neg (by
    push_neg
    constructor
    · exact Int.ofNat_nonneg k
    · exact_mod_cast hk)]
  congr 1
  have htn : ((k : Int)).toNat = k := Int.toNat_ofNat k
  rw [htn]
  apply List.ext_getElem
  · rw [List.length_set, List.length_replicate]
  · intro i h1 h2
    have hi : i < v.length := by
      rw [List.length_set, List.length_replicate] at h1
      exact h1
    have hv : v[i] = v.getD i 0 := by
      simp [List.getD_eq_getElem?_getD, List.getElem?_eq_getElem hi]
    rw [hv, hchar i hi, List.getElem_set]
    by_cases he : i = k
    · rw [if_pos he.symm, if_pos he]
    · rw [if_neg (fun h => he h.symm), if_neg he, List.getElem_replicate]

/-- C10 witness: the one-hot vector [0,1,0] round-trips. -/
theorem onehot_roundtrip_c10_witness :
    (∀ x ∈ [(0 : Int), 1, 0], x = 0 ∨ x = 1) ∧
    ([(0 : Int), 1, 0].count 1 = 1) ∧
    ConvertClassIndexToOneHot (ConvertOneHotToClassIndex [(0 : Int), 1, 0]) 3 =
      some [(0 : Int), 1, 0] :=
  ⟨by decide, by decide, onehot_roundtrip_c10 [(0 : Int), 1, 0] (by decide) (by decide)⟩

end GoCNN

